import Mathlib

/-!
Shallow embedding of `src/copt/frank_wolfe.py` (Frank-Wolfe optimizers from the
`copt` repository) over exact rationals, together with theorems settling the
frozen claims about the specification.

Vectors (and flattened matrices) are `List ℚ`; the objective oracle is a
function `List ℚ → ℚ × List ℚ` returning (loss, gradient), exactly as in the
Python code.  Floating-point numbers are modelled by exact rationals; the
literal `np.finfo(np.float).eps` is `2⁻⁵²`.  The rank-1 SVD used by the trace
drivers is the single construct that cannot be embedded (an external iterative
solver), so it is a function parameter `dyad : Vec → Vec` of those drivers;
everything else is translated line by line from the source.  Division by zero
in ℚ yields 0 (numpy would give inf/nan); no theorem below depends on a
division-by-zero path.
-/

namespace FW

-- Batteries marks the arithmetic of `Rat` irreducible; the concrete
-- evaluations below need it to unfold.
attribute [local semireducible] Rat.add Rat.mul Rat.inv Rat.sub

abbrev Vec := List ℚ

/-- Dot product of two (equal-length) dense vectors; `zipWith` mirrors numpy's
elementwise semantics on matching shapes. -/
def dot (a b : Vec) : ℚ := (List.zipWith (· * ·) a b).sum

/-- Elementwise sum, `x + y`. -/
def vadd (a b : Vec) : Vec := List.zipWith (· + ·) a b

/-- Elementwise difference, `x - y`. -/
def vsub (a b : Vec) : Vec := List.zipWith (· - ·) a b

/-- Scalar multiple `c * x`. -/
def smul (c : ℚ) (v : Vec) : Vec := v.map (fun a => c * a)

/-- Elementwise product (numpy `multiply`). -/
def vmul (a b : Vec) : Vec := List.zipWith (· * ·) a b

/-- The L1 norm `‖x‖₁`, sum of absolute values. -/
def l1norm (v : Vec) : ℚ := (v.map (fun a => |a|)).sum

/-- `np.sign`: 1 on positives, -1 on negatives, 0 at 0. -/
def npSign (x : ℚ) : ℚ := if 0 < x then 1 else if x < 0 then -1 else 0

/-- Helper for `np.argmax(np.abs(v))`: scans the remaining list keeping the
first index attaining the strictly largest absolute value seen so far. -/
def amaAux : Vec → Nat → Nat → ℚ → Nat × ℚ
  | [], _, best, bv => (best, bv)
  | a :: rest, i, best, bv =>
    if bv < |a| then amaAux rest (i + 1) i |a| else amaAux rest (i + 1) best bv

/-- `np.argmax(np.abs(v))`: first index of the maximal absolute value. -/
def argmaxAbs (v : Vec) : Nat :=
  match v with
  | [] => 0
  | a :: rest => (amaAux rest 1 0 |a|).1

/-- `np.max` of a list (the head is the default, as numpy rejects empties). -/
def maxList (l : List ℚ) : ℚ :=
  match l with
  | [] => 0
  | a :: rest => rest.foldl max a

/-- Python indexing `v[i]` for a possibly negative int `i` (negative indices
count from the end). -/
def pyIdx (len : Nat) (i : Int) : Nat :=
  (if i < 0 then (len : Int) + i else i).toNat

/-- Python `i % n` on ints (result in `[0, n)` for `n > 0`), as a Nat index. -/
def pyMod (i : Int) (n : Nat) : Nat := (i % (n : Int)).toNat

/-- `np.finfo(np.float).eps`, the double-precision machine epsilon. -/
def LS_EPS : ℚ := 1 / 2 ^ 52

/-- The closed-form step `min(g_t / (d2_t * L_t), gamma_max)`, the formula
shared by every line-search trial and every `Lipschitz` branch in the file. -/
def lipschitzStep (g_t d2_t L_t gamma_max : ℚ) : ℚ :=
  min (g_t / (d2_t * L_t)) gamma_max

/-- Python exception kinds raised by the source. -/
inductive PyErr
  | valueError
  | nameError
  | assertionError
  deriving DecidableEq, Repr

/-- Result of a fallible computation (Python: normal return or raise). -/
inductive PRes (σ : Type)
  | ok (s : σ)
  | err (e : PyErr)
  deriving DecidableEq, Repr

/-- One driver iteration: converged (`break` on the gap test), continue with a
new state, or raise. -/
inductive StepRes (σ : Type)
  | done
  | next (s : σ)
  | fail (e : PyErr)
  deriving DecidableEq, Repr

/-- The driver loop: `for it in range(maxIter)` with `break` ↦ `.done` and an
exception aborting the run.  Budget exhaustion returns the current state. -/
def runSteps {σ : Type} (step : σ → StepRes σ) : Nat → σ → PRes σ
  | 0, s => .ok s
  | n + 1, s =>
    match step s with
    | .done => .ok s
    | .fail e => .err e
    | .next s' => runSteps step n s'

/-- The three recognized line-search strategy strings, plus a constructor for
any other string value. -/
inductive Strategy
  | adaptive
  | lipschitz
  | approxLs
  | unknown
  deriving DecidableEq, Repr

/-! ### `backtrack` (lines 8-23 of the source)

The Python `for`-loop has a loop-`else` clause: `L_t *= ratio_increase` runs
only when all `max_iter` trials were rejected; a rejected trial re-enters the
loop with `L_t` unchanged.  The recursion below reproduces exactly that:
`L` is fixed during the trials and is only modified at the exits. -/

/-- How the `backtrack` trial loop exited, with the values of `step_size`,
`f_next`, `grad_next` at that point. -/
inductive BTOut
  | accepted (first : Bool) (step fn : ℚ) (gn : Vec)
  | exhausted (step fn : ℚ) (gn : Vec)
  deriving DecidableEq, Repr

/-- The trial loop of `backtrack`: `i` is the Python loop counter (only used
for the `i == 0` test), the first Nat argument the remaining trials. -/
def backtrackAux (fg : Vec → ℚ × Vec) (f_t : ℚ) (x_t d_t : Vec)
    (g_t L_t d2_t gamma_max : ℚ) : Nat → Nat → BTOut
  | 0, _ => .exhausted 0 0 []  -- unreachable: `backtrack` is called with max_iter = 100
  | fuel + 1, i =>
    let step := lipschitzStep g_t d2_t L_t gamma_max
    let rhs := f_t - step * g_t + (1 / 2) * step ^ 2 * L_t * d2_t
    let p := fg (vadd x_t (smul step d_t))
    if p.1 ≤ rhs then .accepted (i = 0) step p.1 p.2
    else
      match fuel with
      | 0 => .exhausted step p.1 p.2
      | fuel' + 1 => backtrackAux fg f_t x_t d_t g_t L_t d2_t gamma_max (fuel' + 1) (i + 1)

/-- `backtrack(f_t, f_grad, x_t, d_t, g_t, L_t, gamma_max, ratio_increase,
ratio_decrease, max_iter)`: returns `(step_size, L_t, f_next, grad_next)`. -/
def backtrack (fg : Vec → ℚ × Vec) (f_t : ℚ) (x_t d_t : Vec) (g_t L_t : ℚ)
    (gamma_max ratio_increase ratio_decrease : ℚ) (max_iter : Nat) :
    ℚ × ℚ × ℚ × Vec :=
  let d2_t := dot d_t d_t
  match backtrackAux fg f_t x_t d_t g_t L_t d2_t gamma_max max_iter 0 with
  | .accepted first step fn gn =>
    (step, if first then L_t * ratio_decrease else L_t, fn, gn)
  | .exhausted step fn gn => (step, L_t * ratio_increase, fn, gn)

/-! ### The inline adaptive line-search loops

The four drivers FW/trace, PFW/trace, PFW/L1 and AFW/L1 contain a shared
inline loop shape `for i in range(100): ...` that doubles `L_t` after each
rejected trial; they differ in the decay factor applied on a first-trial
accept, in whether a `step_size < 1e-7` early break is present, in the step
cap `gamma_max`, and in how `x_next` is formed (a closure `move` here). -/

/-- How an inline adaptive loop exited. -/
inductive ALExit
  | accepted (first : Bool)
  | smallStep
  | exhausted
  deriving DecidableEq, Repr

/-- Result of an inline adaptive loop: exit kind plus the final `step_size`,
`L_t`, `f_next`, `grad_next`. -/
structure ALRes where
  exitKind : ALExit
  step : ℚ
  L : ℚ
  fn : ℚ
  gn : Vec
  deriving DecidableEq, Repr

/-- The inline adaptive loop.  `small` enables the `step_size < 1e-7` break
(present in PFW/L1 and AFW/L1, lines 422 and 566); the sufficient-decrease
test is `(f_next - f_t)/step <= -(g_t - 0.5*step*L_t*d2_t) + LS_EPS/step`.
On a rejection `L_t` is doubled before the next trial; exhausting the loop
also doubles `L_t` one final time (the trailing `else: L_t *= 2`). -/
def adaptiveLoop (fg : Vec → ℚ × Vec) (move : ℚ → Vec)
    (f_t g_t d2_t gamma_max rdec : ℚ) (small : Bool) :
    Nat → Nat → ℚ → ALRes
  | 0, _, L => ⟨.exhausted, 0, L, 0, []⟩  -- unreachable: the loops run 100 trials
  | fuel + 1, i, L =>
    let step := lipschitzStep g_t d2_t L gamma_max
    let p := fg (move step)
    if small ∧ step < 1 / 10 ^ 7 then ⟨.smallStep, step, L, p.1, p.2⟩
    else if (p.1 - f_t) / step ≤ -(g_t - (1 / 2) * step * L * d2_t) + LS_EPS / step then
      ⟨.accepted (i = 0), step, if i = 0 then L * rdec else L, p.1, p.2⟩
    else
      match fuel with
      | 0 => ⟨.exhausted, step, L * 2, p.1, p.2⟩
      | fuel' + 1 =>
        adaptiveLoop fg move f_t g_t d2_t gamma_max rdec small (fuel' + 1) (i + 1) (L * 2)

/-! ### Bisection line searches (`approx_ls`, `approx_ls_trace`,
`approx_ls_armijo`, lines 27-110).  Each maintains a bracket
`[lbracket, rbracket]`, asserts the bracket gradients have opposite signs, and
bisects.  All three use `obj γ = f_grad(x + γ d)` with the directional
derivative `⟨d, grad⟩`. -/

/-- Loop of `approx_ls`: on `fc < f_t` breaks and returns the midpoint of the
updated bracket, as does exhausting the 100 iterations. -/
def approxLsAux (obj : ℚ → ℚ × ℚ) (f_t : ℚ) :
    Nat → ℚ → ℚ → ℚ → ℚ → PRes ℚ
  | 0, lb, _, rb, _ => .ok ((lb + rb) / 2)
  | fuel + 1, lb, glb, rb, grb =>
    if ¬ (glb * grb ≤ 0) then .err .assertionError
    else
      let c := (lb + rb) / 2
      let p := obj c
      let br := if 0 ≤ p.2 * glb then (c, p.2, rb, grb) else (lb, glb, c, p.2)
      if p.1 < f_t then .ok ((br.1 + br.2.2.1) / 2)
      else approxLsAux obj f_t fuel br.1 br.2.1 br.2.2.1 br.2.2.2

/-- `approx_ls(f_t, f_grad, x_t, d_t, ...)` (lines 27-52). -/
def approx_ls (fg : Vec → ℚ × Vec) (f_t : ℚ) (x_t d_t : Vec)
    (gamma_max : ℚ) (max_iter : Nat) : PRes ℚ :=
  let obj := fun γ => let p := fg (vadd x_t (smul γ d_t)); (p.1, dot d_t p.2)
  approxLsAux obj f_t max_iter 0 (obj 0).2 gamma_max (obj gamma_max).2

/-- Loop of `approx_ls_trace`: after the loop ends (break or exhaustion) the
final Armijo-style check decides between the last midpoint `c` and the
bracket midpoint.  A zero `max_iter` would reference `fc` before assignment
(Python `NameError`); the loop is always entered with `max_iter = 100`. -/
def approxLsTraceAux (obj : ℚ → ℚ × ℚ) (f_t : ℚ) :
    Nat → ℚ → ℚ → ℚ → ℚ → PRes ℚ
  | 0, _, _, _, _ => .err .nameError
  | fuel + 1, lb, glb, rb, grb =>
    if ¬ (glb * grb ≤ 0) then .err .assertionError
    else
      let c := (lb + rb) / 2
      let p := obj c
      let br := if 0 ≤ p.2 * glb then (c, p.2, rb, grb) else (lb, glb, c, p.2)
      if p.1 < f_t ∨ fuel = 0 then
        if p.1 < f_t + (1 / 100) * c * p.2 then .ok c
        else .ok ((br.1 + br.2.2.1) / 2)
      else approxLsTraceAux obj f_t fuel br.1 br.2.1 br.2.2.1 br.2.2.2

/-- `approx_ls_trace` (lines 54-81); on flattened matrices
`grad.multiply(d_t).sum()` is the dot product. -/
def approx_ls_trace (fg : Vec → ℚ × Vec) (f_t : ℚ) (x_t d_t : Vec)
    (gamma_max : ℚ) (max_iter : Nat) : PRes ℚ :=
  let obj := fun γ => let p := fg (vadd x_t (smul γ d_t)); (p.1, dot d_t p.2)
  approxLsTraceAux obj f_t max_iter 0 (obj 0).2 gamma_max (obj gamma_max).2

/-- Loop of `approx_ls_armijo`: breaks on the Armijo test
`fc < f_t + 0.1*c*⟨d, grad⟩` and returns the last midpoint `c` either way. -/
def approxLsArmijoAux (obj : ℚ → ℚ × ℚ) (f_t : ℚ) :
    Nat → ℚ → ℚ → ℚ → ℚ → PRes ℚ
  | 0, _, _, _, _ => .err .nameError
  | fuel + 1, lb, glb, rb, grb =>
    if ¬ (glb * grb ≤ 0) then .err .assertionError
    else
      let c := (lb + rb) / 2
      let p := obj c
      let br := if 0 ≤ p.2 * glb then (c, p.2, rb, grb) else (lb, glb, c, p.2)
      if p.1 < f_t + (1 / 10) * c * p.2 ∨ fuel = 0 then .ok c
      else approxLsArmijoAux obj f_t fuel br.1 br.2.1 br.2.2.1 br.2.2.2

/-- `approx_ls_armijo` (lines 85-110); `grad_gamma` and `d_t.dot(grad_f)` are
both the directional derivative `⟨d, grad⟩`. -/
def approx_ls_armijo (fg : Vec → ℚ × Vec) (f_t : ℚ) (x_t d_t : Vec)
    (gamma_max : ℚ) (max_iter : Nat) : PRes ℚ :=
  let obj := fun γ => let p := fg (vadd x_t (smul γ d_t)); (p.1, dot d_t p.2)
  approxLsArmijoAux obj f_t max_iter 0 (obj 0).2 gamma_max (obj gamma_max).2

/-! ### `max_active` (lines 342-361): linear scan over the `2n+1`-slot active
mask.  Slots `0..n-1` score `grad[j]`, slots `n..2n-1` score `-grad[j % n]`
(that is, `-grad[j-n]`), and the origin slot `2n` scores `0` when still
eligible.  `-inf` is modelled as `none`; the source returns the running index
as a Python int that stays `-1` when no slot is active, hence `Int`. -/

/-- One of the two scan loops of `max_active`, folded over explicit index
lists. -/
def maxActiveFold (score : Nat → ℚ) (active : List Bool) (js : List Nat)
    (acc : Option (ℚ × Int)) : Option (ℚ × Int) :=
  js.foldl
    (fun acc j =>
      if active.getD j false then
        match acc with
        | none => some (score j, (j : Int))
        | some (bv, bi) => if bv < score j then some (score j, (j : Int)) else some (bv, bi)
      else acc)
    acc

/-- `max_active(grad, active_set, n_features, include_zero)`. -/
def max_active (grad : Vec) (active : List Bool) (n : Nat) (includeZero : Bool) :
    Option ℚ × Int :=
  let acc1 := maxActiveFold (fun j => grad.getD j 0) active (List.range n) none
  let acc2 := maxActiveFold (fun j => -(grad.getD (j - n) 0)) active
    (List.range' n n) acc1
  match acc2 with
  | none =>
    if includeZero ∧ active.getD (2 * n) false then (some 0, (2 * n : Nat))
    else (none, -1)
  | some (bv, bi) =>
    if includeZero ∧ bv < 0 ∧ active.getD (2 * n) false then (some 0, (2 * n : Nat))
    else (some bv, bi)

/-! ### The matrix-completion objective of the trace drivers (lines 163-171
and 234-238): `A` is the (flattened) data matrix, `P` its sparsity mask, and
`n_features` the total entry count. -/

/-- `f_grad` of the trace drivers: `tmp = A - P*x`,
`f = 0.5 * mean(tmp²)`, `grad = -tmp / n_features`. -/
def fgTrace (A P : Vec) (nf : ℚ) (x : Vec) : ℚ × Vec :=
  let tmp := vsub A (vmul P x)
  ((1 / 2) * ((tmp.map (fun t => t * t)).sum / nf), smul (-(1 / nf)) tmp)

/-! ### `minimize_FW_L1` (lines 112-148) -/

/-- Loop state of the vanilla drivers: iterate, curvature estimate, cached
loss and gradient. -/
structure FWL1St where
  x : Vec
  L : ℚ
  f : ℚ
  grad : Vec
  deriving DecidableEq, Repr

/-- The FW/L1 oracle direction `d_t = -x_t; d_t[idx_oracle] += mag_oracle`
(lines 121-124). -/
def fwL1Dir (alpha : ℚ) (x grad : Vec) : Vec :=
  let idx := argmaxAbs grad
  let mag := alpha * npSign (-(grad.getD idx 0))
  let d0 := smul (-1) x
  d0.set idx (d0.getD idx 0 + mag)

/-- The FW/L1 Frank-Wolfe gap `g_t = -⟨d_t, grad⟩` (line 125). -/
def fwL1Gap (alpha : ℚ) (x grad : Vec) : ℚ := -(dot (fwL1Dir alpha x grad) grad)

/-- One iteration of `minimize_FW_L1`.  An unrecognized strategy falls through
the `if/elif` chain and hits the undefined `step_size` at line 139: a Python
`NameError`, not an explicit configuration check. -/
def fwL1Step (fg : Vec → ℚ × Vec) (alpha tol : ℚ) (strat : Strategy)
    (s : FWL1St) : StepRes FWL1St :=
  let d := fwL1Dir alpha s.x s.grad
  let g := fwL1Gap alpha s.x s.grad
  if g ≤ tol then .done
  else
    match strat with
    | .adaptive =>
      let r := backtrack fg s.f s.x d g s.L 1 2 (999 / 1000) 100
      .next ⟨vadd s.x (smul r.1 d), r.2.1, r.2.2.1, r.2.2.2⟩
    | .lipschitz =>
      let d2 := dot d d
      let step := lipschitzStep g d2 s.L 1
      let p := fg (vadd s.x (smul step d))
      .next ⟨vadd s.x (smul step d), s.L, p.1, p.2⟩
    | .approxLs =>
      match approx_ls_armijo fg s.f s.x d 1 100 with
      | .ok step =>
        let p := fg (vadd s.x (smul step d))
        .next ⟨vadd s.x (smul step d), s.L, p.1, p.2⟩
      | .err e => .fail e
    | .unknown => .fail .nameError

/-- Initial state of `minimize_FW_L1`: `x_t = x0.copy()` and one oracle call
(lines 114-118). -/
def fwL1Init (fg : Vec → ℚ × Vec) (x0 : Vec) (L : ℚ) : FWL1St :=
  let p := fg x0
  ⟨x0, L, p.1, p.2⟩

/-- `minimize_FW_L1`: the full driver (progress display and callback are
observational and omitted). -/
def minimize_FW_L1 (fg : Vec → ℚ × Vec) (x0 : Vec) (alpha L tol : ℚ)
    (strat : Strategy) (max_iter : Nat) : PRes FWL1St :=
  runSteps (fwL1Step fg alpha tol strat) max_iter (fwL1Init fg x0 L)

/-! ### `minimize_FW_trace` (lines 151-214).  The rank-1 truncated SVD of
`-grad` is the external solver `splinalg.svds`; its normalized dyad `u·vᵗ` is
the parameter `dyad` applied to `-grad`. -/

/-- The FW/trace oracle vertex `s_t = alpha * u.dot(vt)` (lines 177-178). -/
def fwTraceVertex (dyad : Vec → Vec) (alpha : ℚ) (grad : Vec) : Vec :=
  smul alpha (dyad (smul (-1) grad))

/-- The FW/trace gap `g_t = -⟨grad, s_t - x_t⟩` (lines 180-181). -/
def fwTraceGap (grad x sT : Vec) : ℚ := -(dot grad (vsub sT x))

/-- One iteration of `minimize_FW_trace`. -/
def fwTraceStep (dyad : Vec → Vec) (A P : Vec) (nf alpha tol : ℚ)
    (strat : Strategy) (s : FWL1St) : StepRes FWL1St :=
  let fg := fgTrace A P nf
  let sT := fwTraceVertex dyad alpha s.grad
  let d := vsub sT s.x
  let g := fwTraceGap s.grad s.x sT
  if g ≤ tol then .done
  else
    match strat with
    | .adaptive =>
      let d2 := dot d d
      let r := adaptiveLoop fg (fun step => vadd s.x (smul step d)) s.f g d2 1
        (999 / 1000) false 100 0 s.L
      .next ⟨vadd s.x (smul r.step d), r.L, r.fn, r.gn⟩
    | .lipschitz =>
      let d2 := dot d d
      let step := lipschitzStep g d2 s.L 1
      let p := fg (vadd s.x (smul step d))
      .next ⟨vadd s.x (smul step d), s.L, p.1, p.2⟩
    | .approxLs =>
      match approx_ls_trace fg s.f s.x d 1 100 with
      | .ok step =>
        let p := fg (vadd s.x (smul step d))
        .next ⟨vadd s.x (smul step d), s.L, p.1, p.2⟩
      | .err e => .fail e
    | .unknown => .fail .valueError

/-- `minimize_FW_trace`: `P` is the sparsity mask of `A` (`P.data[:] = 1`),
`n_features = A.shape[0] * A.shape[1]` is the flattened length. -/
def minimize_FW_trace (dyad : Vec → Vec) (A : Vec) (x0 : Vec)
    (alpha L tol : ℚ) (strat : Strategy) (max_iter : Nat) : PRes FWL1St :=
  let P := A.map (fun a => if a = 0 then (0 : ℚ) else 1)
  let nf := (A.length : ℚ)
  let fg := fgTrace A P nf
  runSteps (fwTraceStep dyad A P nf alpha tol strat) max_iter (fwL1Init fg x0 L)

/-! ### `minimize_PFW_trace` (lines 220-336): explicit active set of atoms
with a parallel weight list. -/

/-- Loop state of PFW/trace. -/
structure PFWTraceSt where
  x : Vec
  L : ℚ
  f : ℚ
  grad : Vec
  activeSet : List Vec
  coefs : List ℚ
  deriving DecidableEq, Repr

/-- Dedup scan (lines 247-255): first index minimizing `max((s_t - atom)²)`,
strict `<` against a running minimum started at `inf` (`none`). -/
def dedupAux (s0 : Vec) : List Vec → Nat → Option (ℚ × Nat) → Option (ℚ × Nat)
  | [], _, acc => acc
  | a :: rest, i, acc =>
    let t := vsub s0 a
    let tn := maxList (t.map (fun u => u * u))
    match acc with
    | none => dedupAux s0 rest (i + 1) (some (tn, i))
    | some (bv, bi) =>
      if tn < bv then dedupAux s0 rest (i + 1) (some (tn, i))
      else dedupAux s0 rest (i + 1) (some (bv, bi))

/-- Away-atom scan (lines 260-276): keeps the last atom minimizing
`⟨grad, x - atom⟩` (the `<=` update), i.e. the atom maximizing `⟨grad, atom⟩`;
the running minimum starts at `inf` (`none`). -/
def awayAux (grad x : Vec) : List Vec → Nat → Option (Nat × Vec × ℚ) →
    Option (Nat × Vec × ℚ)
  | [], _, acc => acc
  | a :: rest, i, acc =>
    let loss := dot grad (vsub x a)
    match acc with
    | none => awayAux grad x rest (i + 1) (some (i, a, loss))
    | some (bi, bv, bl) =>
      if loss ≤ bl then awayAux grad x rest (i + 1) (some (i, a, loss))
      else awayAux grad x rest (i + 1) (some (bi, bv, bl))

/-- Data computed by the head of a PFW/trace iteration (lines 245-285). -/
structure PFWTraceHead where
  sT : Vec
  inSet : Bool
  idxMin : Nat
  vtIdx : Nat
  vT : Vec
  gammaMax : ℚ
  d : Vec
  g : ℚ
  deriving DecidableEq, Repr

/-- Head of a PFW/trace iteration: oracle vertex, dedup against the active
set (tolerance `1e-4`), away-atom selection (`raise ValueError` when the
active set is empty, line 279-280), step cap `gamma_max = coefs[vt_idx]`
(line 282), pairwise direction and gap. -/
def pfwTraceHead (dyad : Vec → Vec) (alpha : ℚ) (s : PFWTraceSt) :
    PRes PFWTraceHead :=
  let s0 := fwTraceVertex dyad alpha s.grad
  let ded := dedupAux s0 s.activeSet 0 none
  let inSet := match ded with
    | some (bv, _) => decide (bv < 1 / 10 ^ 4)
    | none => false
  let idxMin := match ded with
    | some (_, bi) => bi
    | none => 0  -- Python keeps -1 here; it is only read when `inSet` holds
  let sT := if inSet then s.activeSet.getD idxMin [] else s0
  match awayAux s.grad s.x s.activeSet 0 none with
  | none => .err .valueError
  | some (vi, vv, _) =>
    let d := vsub sT vv
    .ok ⟨sT, inSet, idxMin, vi, vv, s.coefs.getD vi 0, d, -(dot s.grad d)⟩

/-- Toward-atom active-set update (lines 316-320): increment the weight of a
deduplicated atom, or append the new atom with weight `step_size`. -/
def pfwTraceToward (inSet : Bool) (idxMin : Nat) (sT : Vec) (step : ℚ)
    (A : List Vec) (W : List ℚ) : List Vec × List ℚ :=
  if inSet then (A, W.set idxMin (W.getD idxMin 0 + step))
  else (A ++ [sT], W ++ [step])

/-- Away-atom active-set update (lines 322-326): a drop step
(`step_size == gamma_max`) pops the away atom and its weight; otherwise the
away weight is decremented by `step_size`. -/
def pfwTraceAway (step gamma_max : ℚ) (vtIdx : Nat)
    (A : List Vec) (W : List ℚ) : List Vec × List ℚ :=
  if step = gamma_max then (A.eraseIdx vtIdx, W.eraseIdx vtIdx)
  else (A, W.set vtIdx (W.getD vtIdx 0 - step))

/-- State after a PFW/trace iteration given the chosen step (lines 313-332). -/
def pfwTraceNext (s : PFWTraceSt) (h : PFWTraceHead) (step L' fn : ℚ)
    (gn : Vec) : PFWTraceSt :=
  let x' := vadd s.x (smul step h.d)
  let tw := pfwTraceToward h.inSet h.idxMin h.sT step s.activeSet s.coefs
  let aw := pfwTraceAway step h.gammaMax h.vtIdx tw.1 tw.2
  ⟨x', L', fn, gn, aw.1, aw.2⟩

/-- One iteration of `minimize_PFW_trace`.  The gap test at lines 287-290 is
`if g_t <= tol: pass` — the `break` is commented out in the source, so the
loop never converges early; the iteration proceeds regardless of `g_t`. -/
def pfwTraceStep (dyad : Vec → Vec) (A P : Vec) (nf alpha tol : ℚ)
    (strat : Strategy) (s : PFWTraceSt) : StepRes PFWTraceSt :=
  let fg := fgTrace A P nf
  match pfwTraceHead dyad alpha s with
  | .err e => .fail e
  | .ok h =>
    match strat with
    | .adaptive =>
      let d2 := dot h.d h.d
      let r := adaptiveLoop fg (fun step => vadd s.x (smul step h.d)) s.f h.g d2
        h.gammaMax (99 / 100) false 100 0 s.L
      .next (pfwTraceNext s h r.step r.L r.fn r.gn)
    | .lipschitz =>
      let d2 := dot h.d h.d
      let step := lipschitzStep h.g d2 s.L h.gammaMax
      let p := fg (vadd s.x (smul step h.d))
      .next (pfwTraceNext s h step s.L p.1 p.2)
    | .approxLs =>
      -- line 307: `approx_ls` is called with the default gamma_max = 1
      match approx_ls fg s.f s.x h.d 1 100 with
      | .ok step =>
        let p := fg (vadd s.x (smul step h.d))
        .next (pfwTraceNext s h step s.L p.1 p.2)
      | .err e => .fail e
    | .unknown => .fail .valueError

/-- Initial state of `minimize_PFW_trace`: active set `{np.zeros(A.shape)}`
with weight list `[1.]` (lines 230-231). -/
def pfwTraceInit (A P : Vec) (nf : ℚ) (x0 : Vec) (L : ℚ) : PFWTraceSt :=
  let p := fgTrace A P nf x0
  ⟨x0, L, p.1, p.2, [List.replicate A.length 0], [1]⟩

/-- `minimize_PFW_trace`. -/
def minimize_PFW_trace (dyad : Vec → Vec) (A : Vec) (x0 : Vec)
    (alpha L tol : ℚ) (strat : Strategy) (max_iter : Nat) : PRes PFWTraceSt :=
  let P := A.map (fun a => if a = 0 then (0 : ℚ) else 1)
  let nf := (A.length : ℚ)
  runSteps (pfwTraceStep dyad A P nf alpha tol strat) max_iter
    (pfwTraceInit A P nf x0 L)

/-! ### `minimize_PFW_L1` (lines 364-489): compact `2n+1`-slot boolean active
mask (positive support, negative support, origin) plus the scalar
`weight_zero`.  `x0` enters the driver only through its size. -/

/-- Loop state of PFW/L1; `it` is the loop counter (the away-weight update at
lines 458-467 is guarded by `it > 0`). -/
structure PFWL1St where
  x : Vec
  L : ℚ
  f : ℚ
  grad : Vec
  activeSet : List Bool
  weightZero : ℚ
  it : Nat
  deriving DecidableEq, Repr

/-- Data computed by the head of a PFW/L1 iteration (lines 385-404). -/
structure PFWL1Head where
  idxOracle : Nat
  magOracle : ℚ
  awayIdx : Int
  magAway : ℚ
  isAwayZero : Bool
  gammaMax : ℚ
  g : ℚ
  deriving DecidableEq, Repr

/-- Head of a PFW/L1 iteration: oracle slot (shifted by `n` when the gradient
coordinate is positive), away slot from `max_active`,
`mag_away = alpha * sign(n - away_idx)`, step cap `gamma_max` (`weight_zero`
for the origin, `|x[away % n]| / alpha` otherwise), and the gap
`g_t = grad[away % n]*mag_away - grad[oracle % n]*mag_oracle`. -/
def pfwL1Head (alpha : ℚ) (n : Nat) (s : PFWL1St) : PFWL1Head :=
  let o0 := argmaxAbs s.grad
  let o := if 0 < s.grad.getD o0 0 then o0 + n else o0
  let magO := alpha * npSign (-(s.grad.getD (o % n) 0))
  let aIdx := (max_active s.grad s.activeSet n true).2
  let magA := alpha * npSign ((n : ℚ) - (aIdx : ℚ))
  let isZ : Bool := aIdx = (2 * n : Nat)
  let gammaMax := if isZ then s.weightZero else |s.x.getD (pyMod aIdx n) 0| / alpha
  let g := s.grad.getD (pyMod aIdx n) 0 * magA - s.grad.getD (o % n) 0 * magO
  ⟨o, magO, aIdx, magA, isZ, gammaMax, g⟩

/-- `x_next` of a PFW/L1 trial (lines 418-420): both coordinate writes read
the original `x_t`; the away write is skipped when the away atom is the
origin. -/
def pfwL1Move (n : Nat) (s : PFWL1St) (h : PFWL1Head) (step : ℚ) : Vec :=
  let x1 := s.x.set (h.idxOracle % n) (s.x.getD (h.idxOracle % n) 0 + step * h.magOracle)
  if h.isAwayZero then x1
  else x1.set (pyMod h.awayIdx n)
    (s.x.getD (pyMod h.awayIdx n) 0 - step * h.magAway)

/-- Tail of a PFW/L1 iteration after the line search (lines 451-469): the
curvature ceiling `L_t >= 1e10` aborts with `ValueError`; then the iterate
and mask are updated, and—only when `it > 0`—the away weight bookkeeping
runs (`weight_zero` decrement with possible origin drop, or away-slot mask
refresh). -/
def pfwL1Finish (n : Nat) (s : PFWL1St) (h : PFWL1Head)
    (step L' fn : ℚ) (gn : Vec) (x' : Vec) : StepRes PFWL1St :=
  if (10 : ℚ) ^ 10 ≤ L' then .fail .valueError
  else
    let a1 := s.activeSet.set h.idxOracle (decide (x'.getD (h.idxOracle % n) 0 ≠ 0))
    let upd :=
      if 0 < s.it then
        if h.isAwayZero then
          let w := s.weightZero - step
          ((if w = 0 then a1.set (2 * n) false else a1), w)
        else
          (a1.set (pyIdx (2 * n + 1) h.awayIdx)
            (decide (x'.getD (pyMod h.awayIdx n) 0 ≠ 0)), s.weightZero)
      else (a1, s.weightZero)
    .next ⟨x', L', fn, gn, upd.1, upd.2, s.it + 1⟩

/-- One iteration of `minimize_PFW_L1`: `assert gamma_max > 0` (line 400),
gap test with `break` (line 404), `raise ValueError` when the oracle and away
slots coincide (lines 407-408), `d2_t = 2 alpha²` (line 410), line-search
dispatch accepting only `adaptive` and `Lipschitz` (line 448-449 raises
`ValueError(ls_strategy)` otherwise, including for `approx_ls`). -/
def pfwL1Step (fg : Vec → ℚ × Vec) (alpha tol : ℚ) (n : Nat)
    (strat : Strategy) (s : PFWL1St) : StepRes PFWL1St :=
  let h := pfwL1Head alpha n s
  if ¬ (0 < h.gammaMax) then .fail .assertionError
  else if h.g ≤ tol then .done
  else if (h.idxOracle : Int) = h.awayIdx then .fail .valueError
  else
    let d2 := 2 * alpha ^ 2
    match strat with
    | .adaptive =>
      let r := adaptiveLoop fg (pfwL1Move n s h) s.f h.g d2 h.gammaMax
        (999 / 1000) true 100 0 s.L
      pfwL1Finish n s h r.step r.L r.fn r.gn (pfwL1Move n s h r.step)
    | .lipschitz =>
      let step := lipschitzStep h.g d2 s.L h.gammaMax
      let p := fg (pfwL1Move n s h step)
      pfwL1Finish n s h step s.L p.1 p.2 (pfwL1Move n s h step)
    | _ => .fail .valueError

/-- Initial state of `minimize_PFW_L1` (lines 366-382): `x_t = np.zeros`,
mask all-false except the origin slot, `weight_zero = 1`, one oracle call. -/
def pfwL1Init (fg : Vec → ℚ × Vec) (n : Nat) (L : ℚ) : PFWL1St :=
  let x := List.replicate n (0 : ℚ)
  let p := fg x
  ⟨x, L, p.1, p.2, (List.replicate (2 * n + 1) false).set (2 * n) true, 1, 0⟩

/-- `minimize_PFW_L1`: the starting point contributes only its size
(`x_t = np.zeros(x0.size)`, `n_features = x0.shape[0]`). -/
def minimize_PFW_L1 (fg : Vec → ℚ × Vec) (x0 : Vec) (alpha L tol : ℚ)
    (strat : Strategy) (max_iter : Nat) : PRes PFWL1St :=
  runSteps (pfwL1Step fg alpha tol x0.length strat) max_iter
    (pfwL1Init fg x0.length L)

/-! ### `minimize_AFW_L1` (lines 492-616) -/

/-- Loop state of AFW/L1 (its `weight_zero` is initialized but never used). -/
structure AFWL1St where
  x : Vec
  L : ℚ
  f : ℚ
  grad : Vec
  activeSet : List Bool
  deriving DecidableEq, Repr

/-- Data computed by the head of an AFW/L1 iteration (lines 512-548):
forward and away gaps, then direction, cap and gap for the chosen branch. -/
structure AFWL1Head where
  idxOracle : Nat
  magOracle : ℚ
  awayIdx : Int
  magAway : ℚ
  gtFw : ℚ
  gtA : ℚ
  d : Vec
  gammaMax : ℚ
  g : ℚ
  deriving DecidableEq, Repr

/-- Head of an AFW/L1 iteration.  `gt_fw = -mag_oracle*grad[o%n] + ⟨grad,x⟩`,
`gt_a = -⟨grad,x⟩ + mag_away*grad[a%n]`; a forward step (`gt_fw >= gt_a`)
uses `d = -x + mag_oracle·e_{o%n}` and `gamma_max = 1`, an away step uses
`d = x - mag_away·e_{a%n}` and `gamma_max = alpha_v / (1 - alpha_v)` with
`alpha_v = |x[a%n]| / alpha`. -/
def afwL1Head (alpha : ℚ) (n : Nat) (s : AFWL1St) : AFWL1Head :=
  let o0 := argmaxAbs s.grad
  let o := if 0 < s.grad.getD o0 0 then o0 + n else o0
  let magO := alpha * npSign (-(s.grad.getD (o % n) 0))
  let aIdx := (max_active s.grad s.activeSet n true).2
  let magA := alpha * npSign ((n : ℚ) - (aIdx : ℚ))
  let xGrad := dot s.grad s.x
  let gtFw := -(magO * s.grad.getD (o % n) 0) + xGrad
  let gtA := -xGrad + magA * s.grad.getD (pyMod aIdx n) 0
  let d0 := smul (-1) s.x
  let dFw := d0.set (o % n) (d0.getD (o % n) 0 + magO)
  let alphaV := |s.x.getD (pyMod aIdx n) 0| / alpha
  let dAway := s.x.set (pyMod aIdx n) (s.x.getD (pyMod aIdx n) 0 - magA)
  ⟨o, magO, aIdx, magA, gtFw, gtA,
    if gtA ≤ gtFw then dFw else dAway,
    if gtA ≤ gtFw then 1 else alphaV / (1 - alphaV),
    if gtA ≤ gtFw then gtFw else gtA⟩

/-- Tail of an AFW/L1 iteration after the line search (lines 591-598):
curvature ceiling, iterate update, and unconditional mask refresh of the
oracle and away slots. -/
def afwL1Finish (n : Nat) (s : AFWL1St) (h : AFWL1Head)
    (L' fn : ℚ) (gn : Vec) (x' : Vec) : StepRes AFWL1St :=
  if (10 : ℚ) ^ 10 ≤ L' then .fail .valueError
  else
    let a1 := s.activeSet.set h.idxOracle (decide (x'.getD (h.idxOracle % n) 0 ≠ 0))
    let a2 := a1.set (pyIdx (2 * n + 1) h.awayIdx)
      (decide (x'.getD (pyMod h.awayIdx n) 0 ≠ 0))
    .next ⟨x', L', fn, gn, a2⟩

/-- One iteration of `minimize_AFW_L1`: `assert gt_fw >= 0` (line 534), gap
test with `break` (line 550), line-search dispatch accepting only `adaptive`
and `Lipschitz` (line 588-589 raises `ValueError(ls_strategy)` otherwise). -/
def afwL1Step (fg : Vec → ℚ × Vec) (alpha tol : ℚ) (n : Nat)
    (strat : Strategy) (s : AFWL1St) : StepRes AFWL1St :=
  let h := afwL1Head alpha n s
  if ¬ (0 ≤ h.gtFw) then .fail .assertionError
  else if h.g ≤ tol then .done
  else
    let d2 := dot h.d h.d
    match strat with
    | .adaptive =>
      let r := adaptiveLoop fg (fun step => vadd s.x (smul step h.d)) s.f h.g d2
        h.gammaMax (999 / 1000) true 100 0 s.L
      afwL1Finish n s h r.L r.fn r.gn (vadd s.x (smul r.step h.d))
    | .lipschitz =>
      let step := lipschitzStep h.g d2 s.L h.gammaMax
      let p := fg (vadd s.x (smul step h.d))
      afwL1Finish n s h s.L p.1 p.2 (vadd s.x (smul step h.d))
    | _ => .fail .valueError

/-- Initial state of `minimize_AFW_L1` (lines 494-509). -/
def afwL1Init (fg : Vec → ℚ × Vec) (n : Nat) (L : ℚ) : AFWL1St :=
  let x := List.replicate n (0 : ℚ)
  let p := fg x
  ⟨x, L, p.1, p.2, (List.replicate (2 * n + 1) false).set (2 * n) true⟩

/-- `minimize_AFW_L1`: the starting point contributes only its size. -/
def minimize_AFW_L1 (fg : Vec → ℚ × Vec) (x0 : Vec) (alpha L tol : ℚ)
    (strat : Strategy) (max_iter : Nat) : PRes AFWL1St :=
  runSteps (afwL1Step fg alpha tol x0.length strat) max_iter
    (afwL1Init fg x0.length L)

/-! ### Concrete objective oracles used in witnesses and counterexamples -/

/-- The quadratic oracle `f(x) = ½‖x - b‖²`, `∇f(x) = x - b`. -/
def quadOracle (b : Vec) (x : Vec) : ℚ × Vec :=
  ((1 / 2) * (((vsub x b).map (fun t => t * t)).sum), vsub x b)

/-- The implicit active-set weight total of a PFW/L1 run result: the origin
weight `weight_zero` plus the weights `|x_j| / alpha` carried by the signed
coordinate slots (0 on an error result). -/
def pfwL1WeightSum (alpha : ℚ) (r : PRes PFWL1St) : ℚ :=
  match r with
  | .ok s => s.weightZero + l1norm s.x / alpha
  | .err _ => 0

/-- The final curvature estimate of a FW/L1 run result (0 on an error). -/
def fwL1ResultL (r : PRes FWL1St) : ℚ :=
  match r with
  | .ok s => s.L
  | .err _ => 0

/-- The final cached loss of a FW/L1 run result (0 on an error). -/
def fwL1ResultF (r : PRes FWL1St) : ℚ :=
  match r with
  | .ok s => s.f
  | .err _ => 0

/-- The final iterate of a FW/L1 run result (`[]` on an error). -/
def fwL1ResultX (r : PRes FWL1St) : Vec :=
  match r with
  | .ok s => s.x
  | .err _ => []

/-- Whether a run finished normally (no exception raised). -/
def resOk {σ : Type} (r : PRes σ) : Bool :=
  match r with
  | .ok _ => true
  | .err _ => false

/-! ## Helper lemmas -/

theorem dot_nil_right (a : Vec) : dot a [] = 0 := by
  cases a <;> simp [dot]

theorem dot_comm (a b : Vec) : dot a b = dot b a := by
  induction a generalizing b with
  | nil => cases b <;> simp [dot]
  | cons x xs ih =>
    cases b with
    | nil => simp [dot]
    | cons y ys =>
      simp only [dot, List.zipWith_cons_cons, List.sum_cons] at *
      rw [mul_comm, ih ys]

theorem dot_smul_left (c : ℚ) (a b : Vec) : dot (smul c a) b = c * dot a b := by
  induction a generalizing b with
  | nil => simp [dot, smul]
  | cons x xs ih =>
    cases b with
    | nil => simp [dot, smul]
    | cons y ys =>
      simp only [dot, smul, List.map_cons, List.zipWith_cons_cons, List.sum_cons] at *
      rw [ih ys]; ring

theorem l1norm_nonneg (v : Vec) : 0 ≤ l1norm v := by
  induction v with
  | nil => simp [l1norm]
  | cons x xs ih =>
    simp only [l1norm, List.map_cons, List.sum_cons] at *
    have := abs_nonneg x
    linarith

theorem abs_dot_le (x g : Vec) (M : ℚ) (hM : 0 ≤ M)
    (h : ∀ a ∈ g, |a| ≤ M) : |dot x g| ≤ l1norm x * M := by
  induction x generalizing g with
  | nil => simp [dot, l1norm]
  | cons a xs ih =>
    cases g with
    | nil =>
      simp only [dot_nil_right, abs_zero]
      have h1 := l1norm_nonneg (a :: xs)
      positivity
    | cons b gs =>
      simp only [dot, List.zipWith_cons_cons, List.sum_cons, l1norm,
        List.map_cons] at *
      have h2 : |a * b + (List.zipWith (· * ·) xs gs).sum|
          ≤ |a * b| + |(List.zipWith (· * ·) xs gs).sum| := abs_add _ _
      have h3 : |(List.zipWith (· * ·) xs gs).sum| ≤ l1norm xs * M :=
        ih gs (fun c hc => h c (List.mem_cons_of_mem _ hc))
      have h4 : |a * b| ≤ |a| * M := by
        rw [abs_mul]
        exact mul_le_mul_of_nonneg_left (h b (List.mem_cons_self _ _)) (abs_nonneg a)
      have h5 : l1norm xs = (xs.map (fun t => |t|)).sum := rfl
      rw [h5] at h3
      calc |a * b + (List.zipWith (· * ·) xs gs).sum|
          ≤ |a| * M + (xs.map (fun t => |t|)).sum * M := by linarith
        _ = (|a| + (xs.map (fun t => |t|)).sum) * M := by ring

theorem npSign_neg_mul (t : ℚ) : npSign (-t) * t = -|t| := by
  rcases lt_trichotomy t 0 with h | h | h
  · rw [npSign, if_pos (by linarith), one_mul, abs_of_neg h, neg_neg]
  · simp [h, npSign]
  · rw [npSign, if_neg (by simp; linarith), if_pos (by linarith), abs_of_pos h]
    ring

theorem abs_npSign_le_one (t : ℚ) : |npSign t| ≤ 1 := by
  unfold npSign
  split
  · norm_num
  · split <;> norm_num

theorem amaAux_le (l : Vec) :
    ∀ (i best : Nat) (bv : ℚ),
      bv ≤ (amaAux l i best bv).2 ∧ ∀ a ∈ l, |a| ≤ (amaAux l i best bv).2 := by
  induction l with
  | nil => intro i best bv; simp [amaAux]
  | cons a rest ih =>
    intro i best bv
    by_cases hc : bv < |a|
    · have h := ih (i + 1) i |a|
      constructor
      · simp only [amaAux, if_pos hc]
        exact le_trans (le_of_lt hc) h.1
      · intro c hc'
        simp only [amaAux, if_pos hc]
        rcases List.mem_cons.mp hc' with rfl | hmem
        · exact h.1
        · exact h.2 c hmem
    · have h := ih (i + 1) best bv
      constructor
      · simp only [amaAux, if_neg hc]
        exact h.1
      · intro c hc'
        simp only [amaAux, if_neg hc]
        rcases List.mem_cons.mp hc' with rfl | hmem
        · exact le_trans (not_lt.mp hc) h.1
        · exact h.2 c hmem

theorem amaAux_getD (v : Vec) :
    ∀ (l : Vec) (i best : Nat) (bv : ℚ),
      (∀ k, l.getD k 0 = v.getD (i + k) 0) →
      bv = |v.getD best 0| →
      (amaAux l i best bv).2 = |v.getD (amaAux l i best bv).1 0| := by
  intro l
  induction l with
  | nil => intro i best bv _ hbv; simpa [amaAux] using hbv
  | cons a rest ih =>
    intro i best bv hsuf hbv
    have ha : a = v.getD i 0 := by simpa using hsuf 0
    have hsuf' : ∀ k, rest.getD k 0 = v.getD (i + 1 + k) 0 := by
      intro k
      have := hsuf (k + 1)
      simpa [Nat.add_assoc, Nat.add_comm 1 k] using this
    by_cases hc : bv < |a|
    · simpa [amaAux, hc] using ih (i + 1) i |a| hsuf' (by rw [ha])
    · simpa [amaAux, hc] using ih (i + 1) best bv hsuf' hbv

theorem amaAux_fst_lt (l : Vec) :
    ∀ (i best n : Nat) (bv : ℚ), best < n → i + l.length ≤ n →
      (amaAux l i best bv).1 < n := by
  induction l with
  | nil => intro i best n bv hb _; simpa [amaAux] using hb
  | cons a rest ih =>
    intro i best n bv hb hlen
    simp only [List.length_cons] at hlen
    by_cases hc : bv < |a|
    · simp only [amaAux, hc, if_true]
      exact ih (i + 1) i n |a| (by omega) (by omega)
    · simp only [amaAux, hc, if_false]
      exact ih (i + 1) best n bv hb (by omega)

/-- Every entry of `v` is bounded in absolute value by the entry at
`argmaxAbs v` (the `np.argmax(np.abs(·))` contract). -/
theorem argmaxAbs_spec (v : Vec) : ∀ a ∈ v, |a| ≤ |v.getD (argmaxAbs v) 0| := by
  cases v with
  | nil => simp
  | cons a rest =>
    intro c hc
    have hsuf : ∀ k, rest.getD k 0 = (a :: rest).getD (1 + k) 0 := by
      intro k; simp [Nat.add_comm 1 k]
    have hgd := amaAux_getD (a :: rest) rest 1 0 |a| hsuf (by simp)
    have hle := amaAux_le rest 1 0 |a|
    rcases List.mem_cons.mp hc with rfl | hmem
    · calc |c| ≤ (amaAux rest 1 0 |c|).2 := hle.1
        _ = _ := by simpa [argmaxAbs] using hgd
    · calc |c| ≤ (amaAux rest 1 0 |a|).2 := hle.2 c hmem
        _ = _ := by simpa [argmaxAbs] using hgd

theorem argmaxAbs_lt (v : Vec) (h : 0 < v.length) : argmaxAbs v < v.length := by
  cases v with
  | nil => simp at h
  | cons a rest =>
    have := amaAux_fst_lt rest 1 0 (a :: rest).length |a| (by simp) (by simp; omega)
    simpa [argmaxAbs] using this

theorem dot_set (v w : Vec) (j : Nat) (q : ℚ) :
    ∀ (_ : j < v.length) (_ : v.length = w.length),
      dot (v.set j q) w = dot v w + (q - v.getD j 0) * w.getD j 0 := by
  induction j generalizing v w with
  | zero =>
    intro hj hlen
    cases v with
    | nil => simp at hj
    | cons a xs =>
      cases w with
      | nil => simp at hlen
      | cons b ys =>
        simp only [List.set, dot, List.zipWith_cons_cons, List.sum_cons, List.getD]
        simp [List.getD_cons_zero]
        ring
  | succ j ih =>
    intro hj hlen
    cases v with
    | nil => simp at hj
    | cons a xs =>
      cases w with
      | nil => simp at hlen
      | cons b ys =>
        simp only [List.set, dot, List.zipWith_cons_cons, List.sum_cons]
        have hj' : j < xs.length := by simpa using hj
        have hlen' : xs.length = ys.length := by simpa using hlen
        have := ih xs ys hj' hlen'
        simp only [dot] at this
        rw [this]
        simp [List.getD_cons_succ]
        ring

theorem dot_vsub_right (g a b : Vec) :
    ∀ (_ : g.length = a.length) (_ : a.length = b.length),
      dot g (vsub a b) = dot g a - dot g b := by
  induction g generalizing a b with
  | nil => intro h1 _; simp [dot, vsub]
  | cons x xs ih =>
    intro h1 h2
    cases a with
    | nil => simp at h1
    | cons y ys =>
      cases b with
      | nil => simp at h2
      | cons z zs =>
        simp only [vsub, dot, List.zipWith_cons_cons, List.sum_cons]
        have := ih ys zs (by simpa using h1) (by simpa using h2)
        simp only [dot, vsub] at this
        rw [this]
        ring

theorem dot_replicate_zero_right (v : Vec) (n : Nat) :
    dot v (List.replicate n 0) = 0 := by
  induction v generalizing n with
  | nil => simp [dot]
  | cons x xs ih =>
    cases n with
    | zero => simp [dot]
    | succ m =>
      simp only [List.replicate, dot, List.zipWith_cons_cons, List.sum_cons]
      have := ih m
      simp only [dot] at this
      rw [this]; ring

theorem getD_set_ne {α : Type} [Inhabited α] (l : List α) (i j : Nat) (v d : α)
    (h : i ≠ j) : (l.set i v).getD j d = l.getD j d := by
  induction l generalizing i j with
  | nil => simp
  | cons a rest ih =>
    cases i with
    | zero =>
      cases j with
      | zero => exact absurd rfl h
      | succ j' => simp [List.getD_cons_succ]
    | succ i' =>
      cases j with
      | zero => simp [List.getD_cons_zero]
      | succ j' =>
        simp only [List.set, List.getD_cons_succ]
        exact ih i' j' (by omega)

theorem getD_replicate {α : Type} (n j : Nat) (c d : α) (h : j < n) :
    (List.replicate n c).getD j d = c := by
  induction n generalizing j with
  | zero => omega
  | succ m ih =>
    cases j with
    | zero => simp [List.replicate]
    | succ j' =>
      simp only [List.replicate, List.getD_cons_succ]
      exact ih j' (by omega)

theorem getD_set_self {α : Type} (l : List α) (i : Nat) (v d : α)
    (h : i < l.length) : (l.set i v).getD i d = v := by
  induction l generalizing i with
  | nil => simp at h
  | cons a rest ih =>
    cases i with
    | zero => simp
    | succ i' =>
      simp only [List.set, List.getD_cons_succ]
      exact ih i' (by simpa using h)

theorem pyMod_lt (i : Int) (n : Nat) (h : 0 < n) : pyMod i n < n := by
  unfold pyMod
  have hn : (n : Int) ≠ 0 := by exact_mod_cast Nat.pos_iff_ne_zero.mp h
  have h1 : 0 ≤ i % (n : Int) := Int.emod_nonneg i hn
  have h2 : i % (n : Int) < (n : Int) := Int.emod_lt_of_pos i (by exact_mod_cast h)
  omega

theorem awayAux_eq_some (grad x : Vec) :
    ∀ (l : List Vec) (i : Nat) (acc : Option (Nat × Vec × ℚ)) (q : Nat × Vec × ℚ),
      awayAux grad x l i acc = some q → q.2.1 ∈ l ∨ acc = some q := by
  intro l
  induction l with
  | nil => intro i acc q h; right; exact h
  | cons a rest ih =>
    intro i acc q h
    cases acc with
    | none =>
      simp only [awayAux] at h
      rcases ih (i + 1) (some (i, a, dot grad (vsub x a))) q h with hm | he
      · exact Or.inl (List.mem_cons_of_mem _ hm)
      · left
        have : q = (i, a, dot grad (vsub x a)) := by
          cases he; rfl
        rw [this]
        exact List.mem_cons_self _ _
    | some p =>
      obtain ⟨bi, bv, bl⟩ := p
      simp only [awayAux] at h
      by_cases hc : dot grad (vsub x a) ≤ bl
      · rw [if_pos hc] at h
        rcases ih (i + 1) _ q h with hm | he
        · exact Or.inl (List.mem_cons_of_mem _ hm)
        · left
          have : q = (i, a, dot grad (vsub x a)) := by cases he; rfl
          rw [this]; exact List.mem_cons_self _ _
      · rw [if_neg hc] at h
        rcases ih (i + 1) _ q h with hm | he
        · exact Or.inl (List.mem_cons_of_mem _ hm)
        · exact Or.inr he

theorem awayAux_isSome (grad x : Vec) :
    ∀ (l : List Vec) (i : Nat) (acc : Option (Nat × Vec × ℚ)),
      (acc.isSome ∨ l ≠ []) → (awayAux grad x l i acc).isSome := by
  intro l
  induction l with
  | nil =>
    intro i acc h
    rcases h with h | h
    · simpa [awayAux] using h
    · exact absurd rfl h
  | cons a rest ih =>
    intro i acc h
    cases acc with
    | none => exact ih (i + 1) _ (Or.inl rfl)
    | some p =>
      obtain ⟨bi, bv, bl⟩ := p
      simp only [awayAux]
      by_cases hc : dot grad (vsub x a) ≤ bl
      · rw [if_pos hc]; exact ih (i + 1) _ (Or.inl rfl)
      · rw [if_neg hc]; exact ih (i + 1) _ (Or.inl rfl)

theorem maxActiveFold_inactive (score : Nat → ℚ) (active : List Bool) :
    ∀ (js : List Nat) (acc : Option (ℚ × Int)),
      (∀ j ∈ js, active.getD j false = false) →
      maxActiveFold score active js acc = acc := by
  intro js
  induction js with
  | nil => intro acc _; rfl
  | cons j rest ih =>
    intro acc h
    have hj : active.getD j false = false := h j (List.mem_cons_self _ _)
    show maxActiveFold score active rest
      (if active.getD j false then _ else acc) = acc
    rw [hj]
    simp only [if_false, Bool.false_eq_true]
    exact ih acc (fun k hk => h k (List.mem_cons_of_mem _ hk))

/-- On the initial mask (only the origin slot set), `max_active` selects the
origin slot `2n`. -/
theorem max_active_initMask (grad : Vec) (n : Nat) :
    max_active grad ((List.replicate (2 * n + 1) false).set (2 * n) true) n true
      = (some 0, ((2 * n : Nat) : Int)) := by
  set mask := (List.replicate (2 * n + 1) false).set (2 * n) true with hm
  have hget : ∀ j, j ≠ 2 * n → mask.getD j false = false := by
    intro j hj
    rw [hm, getD_set_ne _ _ _ _ _ (fun h => hj h.symm)]
    rcases Nat.lt_or_ge j (2 * n + 1) with h | h
    · exact getD_replicate _ _ _ _ h
    · exact List.getD_eq_default _ _ (by simpa using h)
  have horigin : mask.getD (2 * n) false = true := by
    rw [hm]
    exact getD_set_self _ _ _ _ (by simp)
  have h1 : maxActiveFold (fun j => grad.getD j 0) mask (List.range n) none = none := by
    apply maxActiveFold_inactive
    intro j hj
    exact hget j (by have := List.mem_range.mp hj; omega)
  have h2 : maxActiveFold (fun j => -(grad.getD (j - n) 0)) mask
      (List.range' n n) none = none := by
    apply maxActiveFold_inactive
    intro j hj
    have := List.mem_range'_1.mp hj
    exact hget j (by omega)
  unfold max_active
  simp only [h1]
  simp only [h2]
  simp only [horigin, true_and, and_true, if_true]

theorem lipschitzStep_pos (g d2 L γmax : ℚ) (hg : 0 < g) (hd2 : 0 < d2)
    (hL : 0 < L) (hγ : 0 < γmax) : 0 < lipschitzStep g d2 L γmax := by
  unfold lipschitzStep
  exact lt_min (by positivity) hγ

/-- Core sufficient-decrease arithmetic: if a trial at the step
`min(g/(d2·L), γmax)` passes the test
`(fn - f_t)/step ≤ -(g - ½·step·L·d2) + eps/step`, the new loss exceeds the
old one by at most `eps`. -/
theorem accept_le (f_t g d2 γmax L fn eps : ℚ)
    (hg : 0 < g) (hd2 : 0 < d2) (hγ : 0 < γmax) (hL : 0 < L) (heps : 0 ≤ eps)
    (h : (fn - f_t) / lipschitzStep g d2 L γmax
      ≤ -(g - (1 / 2) * lipschitzStep g d2 L γmax * L * d2)
        + eps / lipschitzStep g d2 L γmax) :
    fn ≤ f_t + eps := by
  set step := lipschitzStep g d2 L γmax with hstepdef
  have hstep : 0 < step := lipschitzStep_pos g d2 L γmax hg hd2 hL hγ
  have h3 := (div_le_iff hstep).mp h
  have h4 : (-(g - (1 / 2) * step * L * d2) + eps / step) * step
      = -(g * step) + (1 / 2) * step ^ 2 * L * d2 + eps := by
    field_simp
    ring
  rw [h4] at h3
  have h5 : step * (d2 * L) ≤ g := by
    have := min_le_left (g / (d2 * L)) γmax
    rw [hstepdef] at *
    exact (le_div_iff (by positivity)).mp this
  have h6 : step * (step * (d2 * L)) ≤ step * g :=
    mul_le_mul_of_nonneg_left h5 hstep.le
  nlinarith [mul_pos hstep hg]

/-- An accepted trial of the inline adaptive loop does not increase the loss
by more than `LS_EPS`. -/
theorem adaptiveLoop_accept (fg : Vec → ℚ × Vec) (move : ℚ → Vec)
    (f_t g d2 γmax rdec : ℚ) (small : Bool) :
    ∀ (fuel i : Nat) (L : ℚ) (first : Bool),
      0 < g → 0 < d2 → 0 < γmax → 0 < L →
      (adaptiveLoop fg move f_t g d2 γmax rdec small fuel i L).exitKind
        = ALExit.accepted first →
      (adaptiveLoop fg move f_t g d2 γmax rdec small fuel i L).fn
        ≤ f_t + LS_EPS := by
  intro fuel
  induction fuel with
  | zero =>
    intro i L first _ _ _ _ h
    simp [adaptiveLoop] at h
  | succ fuel ih =>
    intro i L first hg hd2 hγ hL h
    rw [adaptiveLoop.eq_def] at h ⊢
    simp only [] at h ⊢
    by_cases h1 : small ∧ lipschitzStep g d2 L γmax < 1 / 10 ^ 7
    · rw [if_pos h1] at h
      simp at h
    · rw [if_neg h1] at h ⊢
      by_cases h2 : ((fg (move (lipschitzStep g d2 L γmax))).1 - f_t)
          / lipschitzStep g d2 L γmax
          ≤ -(g - 1 / 2 * lipschitzStep g d2 L γmax * L * d2)
            + LS_EPS / lipschitzStep g d2 L γmax
      · rw [if_pos h2] at h ⊢
        exact accept_le f_t g d2 γmax L _ LS_EPS hg hd2 hγ hL
          (by unfold LS_EPS; positivity) h2
      · rw [if_neg h2] at h ⊢
        cases fuel with
        | zero => simp at h
        | succ fuel' =>
          exact ih (i + 1) (L * 2) first hg hd2 hγ (by positivity) h

/-- The FW/L1 gap is nonnegative at any feasible iterate. -/
theorem fwL1Gap_nonneg (alpha : ℚ) (x grad : Vec) (ha : 0 ≤ alpha)
    (hlen : x.length = grad.length) (hfeas : l1norm x ≤ alpha) :
    0 ≤ fwL1Gap alpha x grad := by
  by_cases hg : grad = []
  · subst hg
    have hx : x = [] := List.length_eq_zero.mp (by simpa using hlen)
    subst hx
    simp [fwL1Gap, fwL1Dir, dot]
  · have hpos : 0 < grad.length := List.length_pos.mpr hg
    have hj : argmaxAbs grad < grad.length := argmaxAbs_lt grad hpos
    unfold fwL1Gap fwL1Dir
    simp only []
    set j := argmaxAbs grad with hjdef
    set mag := alpha * npSign (-(grad.getD j 0)) with hmagdef
    set d0 := smul (-1) x with hd0def
    have hlen0 : d0.length = x.length := by rw [hd0def]; exact List.length_map _ _
    rw [dot_set d0 grad j (d0.getD j 0 + mag)
      (by rw [hlen0, hlen]; exact hj) (by rw [hlen0]; exact hlen)]
    rw [hd0def, dot_smul_left]
    have hsimp : d0.getD j 0 + mag - d0.getD j 0 = mag := by ring
    rw [hsimp, hmagdef, mul_assoc, npSign_neg_mul]
    have habs : |dot x grad| ≤ l1norm x * |grad.getD j 0| :=
      abs_dot_le x grad _ (abs_nonneg _) (argmaxAbs_spec grad)
    have hml : l1norm x * |grad.getD j 0| ≤ alpha * |grad.getD j 0| :=
      mul_le_mul_of_nonneg_right hfeas (abs_nonneg _)
    have h1 := neg_abs_le (dot x grad)
    linarith

/-- The PFW/L1 gap `g_t` is nonnegative unconditionally: the toward term
contributes `alpha * max|grad|` and the away term is bounded by it. -/
theorem pfwL1Head_g_nonneg (alpha : ℚ) (n : Nat) (s : PFWL1St)
    (ha : 0 ≤ alpha) (hn : 0 < n) (hlen : s.grad.length = n) :
    0 ≤ (pfwL1Head alpha n s).g := by
  have hpos : 0 < s.grad.length := by omega
  have hj : argmaxAbs s.grad < n := by
    have := argmaxAbs_lt s.grad hpos
    omega
  unfold pfwL1Head
  simp only []
  set j := argmaxAbs s.grad with hjdef
  have homod : (if 0 < s.grad.getD j 0 then j + n else j) % n = j := by
    split
    · rw [Nat.add_mod_right]; exact Nat.mod_eq_of_lt hj
    · exact Nat.mod_eq_of_lt hj
  rw [homod]
  set aIdx := (max_active s.grad s.activeSet n true).2 with haidx
  set k := pyMod aIdx n with hkdef
  have hk : k < n := by rw [hkdef]; exact pyMod_lt _ _ hn
  have hterm2 : s.grad.getD j 0 * (alpha * npSign (-(s.grad.getD j 0)))
      = -(alpha * |s.grad.getD j 0|) := by
    rw [mul_comm, mul_assoc, npSign_neg_mul]; ring
  have hmem : s.grad.getD k 0 ∈ s.grad := by
    have hk' : k < s.grad.length := by omega
    rw [List.getD_eq_get _ _ hk']
    exact List.get_mem _ _ _
  have hbound : |s.grad.getD k 0| ≤ |s.grad.getD j 0| := argmaxAbs_spec _ _ hmem
  have hsign : |alpha * npSign ((n : ℚ) - (aIdx : ℚ))| ≤ alpha := by
    rw [abs_mul, abs_of_nonneg ha]
    calc alpha * |npSign ((n : ℚ) - (aIdx : ℚ))| ≤ alpha * 1 :=
          mul_le_mul_of_nonneg_left (abs_npSign_le_one _) ha
      _ = alpha := mul_one alpha
  have h1 : |s.grad.getD k 0 * (alpha * npSign ((n : ℚ) - (aIdx : ℚ)))|
      ≤ |s.grad.getD j 0| * alpha := by
    rw [abs_mul]
    exact mul_le_mul hbound hsign (abs_nonneg _) (abs_nonneg _)
  have h2 := neg_abs_le (s.grad.getD k 0 * (alpha * npSign ((n : ℚ) - (aIdx : ℚ))))
  rw [hterm2]
  nlinarith [abs_nonneg (s.grad.getD j 0)]

/-- The AFW/L1 forward gap `gt_fw` and the chosen-branch gap `g_t` are
nonnegative at any feasible iterate. -/
theorem afwL1Head_nonneg (alpha : ℚ) (n : Nat) (s : AFWL1St)
    (ha : 0 ≤ alpha) (hn : 0 < n) (hlen : s.grad.length = n)
    (hxlen : s.x.length = s.grad.length) (hfeas : l1norm s.x ≤ alpha) :
    0 ≤ (afwL1Head alpha n s).gtFw ∧ 0 ≤ (afwL1Head alpha n s).g := by
  have hpos : 0 < s.grad.length := by omega
  have hj : argmaxAbs s.grad < n := by
    have := argmaxAbs_lt s.grad hpos
    omega
  unfold afwL1Head
  simp only []
  set j := argmaxAbs s.grad with hjdef
  have homod : (if 0 < s.grad.getD j 0 then j + n else j) % n = j := by
    split
    · rw [Nat.add_mod_right]; exact Nat.mod_eq_of_lt hj
    · exact Nat.mod_eq_of_lt hj
  rw [homod]
  have hterm : alpha * npSign (-(s.grad.getD j 0)) * s.grad.getD j 0
      = -(alpha * |s.grad.getD j 0|) := by
    rw [mul_assoc, npSign_neg_mul]; ring
  rw [hterm, dot_comm]
  have habs : |dot s.x s.grad| ≤ l1norm s.x * |s.grad.getD j 0| :=
    abs_dot_le s.x s.grad _ (abs_nonneg _) (argmaxAbs_spec s.grad)
  have hml : l1norm s.x * |s.grad.getD j 0| ≤ alpha * |s.grad.getD j 0| :=
    mul_le_mul_of_nonneg_right hfeas (abs_nonneg _)
  have h1 := neg_abs_le (dot s.x s.grad)
  have hfw : (0 : ℚ) ≤ -(-(alpha * |s.grad.getD j 0|)) + dot s.x s.grad := by
    linarith
  refine ⟨hfw, ?_⟩
  split
  · exact hfw
  · next hcond => linarith [lt_of_not_le hcond]

/-- Inversion of a successful PFW/trace head: the away atom belongs to the
active set, the gap is the pairwise gap of the chosen atoms, and the step cap
is the away atom's current weight. -/
theorem pfwTraceHead_ok (dyad : Vec → Vec) (alpha : ℚ) (s : PFWTraceSt)
    (h : PFWTraceHead) (hh : pfwTraceHead dyad alpha s = .ok h) :
    h.vT ∈ s.activeSet ∧ h.g = -(dot s.grad (vsub h.sT h.vT))
      ∧ h.gammaMax = s.coefs.getD h.vtIdx 0 := by
  unfold pfwTraceHead at hh
  simp only [] at hh
  cases hA : awayAux s.grad s.x s.activeSet 0 none with
  | none => rw [hA] at hh; simp at hh
  | some q =>
    obtain ⟨vi, vv, vl⟩ := q
    rw [hA] at hh
    simp only [] at hh
    injection hh with hh2
    subst hh2
    refine ⟨?_, rfl, rfl⟩
    rcases awayAux_eq_some s.grad s.x s.activeSet 0 none (vi, vv, vl) hA with hm | he
    · exact hm
    · simp at he

/-- An accepted trial of `backtrack` does not increase the loss at all (its
sufficient-decrease bound carries no epsilon slack). -/
theorem backtrackAux_accept (fg : Vec → ℚ × Vec) (f_t : ℚ) (x d : Vec)
    (g L d2 γmax : ℚ) :
    ∀ (fuel i : Nat) (first : Bool) (step fn : ℚ) (gn : Vec),
      0 < g → 0 < d2 → 0 < γmax → 0 < L →
      backtrackAux fg f_t x d g L d2 γmax fuel i
        = BTOut.accepted first step fn gn →
      fn ≤ f_t := by
  intro fuel
  induction fuel with
  | zero =>
    intro i first step fn gn _ _ _ _ h
    simp [backtrackAux] at h
  | succ fuel ih =>
    intro i first step fn gn hg hd2 hγ hL h
    rw [backtrackAux.eq_def] at h
    simp only [] at h
    by_cases h2 : (fg (vadd x (smul (lipschitzStep g d2 L γmax) d))).1
        ≤ f_t - lipschitzStep g d2 L γmax * g
          + 1 / 2 * lipschitzStep g d2 L γmax ^ 2 * L * d2
    · rw [if_pos h2] at h
      cases h
      have hstep : 0 < lipschitzStep g d2 L γmax :=
        lipschitzStep_pos g d2 L γmax hg hd2 hL hγ
      have h5 : lipschitzStep g d2 L γmax * (d2 * L) ≤ g := by
        have := min_le_left (g / (d2 * L)) γmax
        exact (le_div_iff (by positivity)).mp this
      have h6 : lipschitzStep g d2 L γmax * (lipschitzStep g d2 L γmax * (d2 * L))
          ≤ lipschitzStep g d2 L γmax * g :=
        mul_le_mul_of_nonneg_left h5 hstep.le
      nlinarith [mul_pos hstep hg]
    · rw [if_neg h2] at h
      cases fuel with
      | zero => simp at h
      | succ fuel' =>
        exact ih (i + 1) first step fn gn hg hd2 hγ hL h

theorem runSteps_done {σ : Type} (step : σ → StepRes σ) (k : Nat) (s : σ)
    (h : step s = .done) : runSteps step (k + 1) s = .ok s := by
  simp [runSteps, h]

theorem approxLsArmijoAux_ne_valueError (obj : ℚ → ℚ × ℚ) (f_t : ℚ) :
    ∀ (fuel : Nat) (lb glb rb grb : ℚ),
      approxLsArmijoAux obj f_t fuel lb glb rb grb ≠ .err .valueError := by
  intro fuel
  induction fuel with
  | zero => intro lb glb rb grb h; simp [approxLsArmijoAux] at h
  | succ fuel ih =>
    intro lb glb rb grb h
    rw [approxLsArmijoAux] at h
    split at h
    · simp at h
    · simp only [] at h
      split at h
      · simp at h
      · exact ih _ _ _ _ h

theorem approxLsAux_ne_valueError (obj : ℚ → ℚ × ℚ) (f_t : ℚ) :
    ∀ (fuel : Nat) (lb glb rb grb : ℚ),
      approxLsAux obj f_t fuel lb glb rb grb ≠ .err .valueError := by
  intro fuel
  induction fuel with
  | zero => intro lb glb rb grb h; simp [approxLsAux] at h
  | succ fuel ih =>
    intro lb glb rb grb h
    rw [approxLsAux] at h
    split at h
    · simp at h
    · simp only [] at h
      split at h
      · simp at h
      · exact ih _ _ _ _ h

theorem approxLsTraceAux_ne_valueError (obj : ℚ → ℚ × ℚ) (f_t : ℚ) :
    ∀ (fuel : Nat) (lb glb rb grb : ℚ),
      approxLsTraceAux obj f_t fuel lb glb rb grb ≠ .err .valueError := by
  intro fuel
  induction fuel with
  | zero => intro lb glb rb grb h; simp [approxLsTraceAux] at h
  | succ fuel ih =>
    intro lb glb rb grb h
    rw [approxLsTraceAux] at h
    split at h
    · simp at h
    · simp only [] at h
      split at h
      · split at h <;> simp at h
      · exact ih _ _ _ _ h

theorem pfwTraceHead_isOk (dyad : Vec → Vec) (alpha : ℚ) (s : PFWTraceSt)
    (hne : s.activeSet ≠ []) : ∃ h, pfwTraceHead dyad alpha s = .ok h := by
  have hsome := awayAux_isSome s.grad s.x s.activeSet 0 none (Or.inr hne)
  obtain ⟨q, hq⟩ := Option.isSome_iff_exists.mp hsome
  obtain ⟨vi, vv, vl⟩ := q
  unfold pfwTraceHead
  rw [hq]
  exact ⟨_, rfl⟩

/-! ## Claim theorems -/

/-- Claim C1, counterexample.  In PFW/trace the gap test is `if g_t <= tol:
pass` (the `break` is commented out, lines 287-290), so the loop does not
stop at an iteration whose gap is below the tolerance.  Concretely: for the
1×1 matrix-completion problem `A = [2]` started at `x0 = [2]` (gradient `0`),
the first iteration computes `g_t = 0 ≤ tol = 1e-12`, yet the step executes —
it returns a continuation state, and the one-iteration run grows the active
set instead of returning at the gap check. -/
theorem claim_C1_counterexample :
    pfwTraceHead (fun _ => [1]) 1 ⟨[2], 1, 0, [0], [[0]], [1]⟩
        = .ok ⟨[1], false, 0, 0, [0], 1, [1], 0⟩ ∧
    ((0 : ℚ) ≤ 1 / 10 ^ 12) ∧
    pfwTraceStep (fun _ => [1]) [2] [1] 1 1 (1 / 10 ^ 12) .lipschitz
        ⟨[2], 1, 0, [0], [[0]], [1]⟩
      = .next ⟨[2], 1, 0, [0], [[0], [1]], [1, 0]⟩ ∧
    minimize_PFW_trace (fun _ => [1]) [2] [2] 1 1 (1 / 10 ^ 12) .lipschitz 1
      = .ok ⟨[2], 1, 0, [0], [[0], [1]], [1, 0]⟩ := by
  exact ⟨by decide, by decide, by decide, by decide⟩

/-- Claim C1, amended: in FW/L1, FW/trace, PFW/L1 and AFW/L1 (but not
PFW/trace), an iteration whose computed gap is at most `tol` — reached, for
PFW/L1 and AFW/L1, with their preceding assertions satisfied — stops the
loop and returns the current iterate; in every driver a `.done` step makes
the run return the current state, and an exhausted iteration budget returns
the current state without an error. -/
theorem claim_C1_stop :
    (∀ (fg : Vec → ℚ × Vec) (alpha tol : ℚ) (strat : Strategy) (s : FWL1St),
        fwL1Gap alpha s.x s.grad ≤ tol → fwL1Step fg alpha tol strat s = .done) ∧
    (∀ (dyad : Vec → Vec) (A P : Vec) (nf alpha tol : ℚ) (strat : Strategy)
        (s : FWL1St),
        fwTraceGap s.grad s.x (fwTraceVertex dyad alpha s.grad) ≤ tol →
        fwTraceStep dyad A P nf alpha tol strat s = .done) ∧
    (∀ (fg : Vec → ℚ × Vec) (alpha tol : ℚ) (n : Nat) (strat : Strategy)
        (s : PFWL1St),
        0 < (pfwL1Head alpha n s).gammaMax → (pfwL1Head alpha n s).g ≤ tol →
        pfwL1Step fg alpha tol n strat s = .done) ∧
    (∀ (fg : Vec → ℚ × Vec) (alpha tol : ℚ) (n : Nat) (strat : Strategy)
        (s : AFWL1St),
        0 ≤ (afwL1Head alpha n s).gtFw → (afwL1Head alpha n s).g ≤ tol →
        afwL1Step fg alpha tol n strat s = .done) ∧
    (∀ (σ : Type) (step : σ → StepRes σ) (k : Nat) (s : σ),
        step s = .done → runSteps step (k + 1) s = .ok s) ∧
    (∀ (σ : Type) (step : σ → StepRes σ) (s : σ), runSteps step 0 s = .ok s) := by
  refine ⟨?_, ?_, ?_, ?_, ?_, ?_⟩
  · intro fg alpha tol strat s h
    unfold fwL1Step
    simp only []
    rw [if_pos h]
  · intro dyad A P nf alpha tol strat s h
    unfold fwTraceStep
    simp only []
    rw [if_pos h]
  · intro fg alpha tol n strat s h1 h2
    unfold pfwL1Step
    simp only []
    rw [if_neg (not_not_intro h1), if_pos h2]
  · intro fg alpha tol n strat s h1 h2
    unfold afwL1Step
    simp only []
    rw [if_neg (not_not_intro h1), if_pos h2]
  · intro σ step k s h
    simp [runSteps, h]
  · intro σ step s
    rfl

/-- Claim C1, witness: concrete instantiations of each stopping statement. -/
theorem claim_C1_stop_witness :
    (fwL1Gap 1 [0] [-1] ≤ 2 ∧
      fwL1Step (quadOracle [1]) 1 2 .adaptive ⟨[0], 1, 1 / 2, [-1]⟩ = .done) ∧
    (fwTraceGap [0] [2] (fwTraceVertex (fun _ => [1]) 1 [0]) ≤ 1 ∧
      fwTraceStep (fun _ => [1]) [2] [1] 1 1 1 .adaptive ⟨[2], 1, 0, [0]⟩ = .done) ∧
    (0 < (pfwL1Head 0 1 (pfwL1Init (quadOracle [3]) 1 1)).gammaMax ∧
      (pfwL1Head 0 1 (pfwL1Init (quadOracle [3]) 1 1)).g ≤ 0 ∧
      pfwL1Step (quadOracle [3]) 0 0 1 .adaptive (pfwL1Init (quadOracle [3]) 1 1)
        = .done) ∧
    (0 ≤ (afwL1Head 0 1 (afwL1Init (quadOracle [3]) 1 1)).gtFw ∧
      (afwL1Head 0 1 (afwL1Init (quadOracle [3]) 1 1)).g ≤ 0 ∧
      afwL1Step (quadOracle [3]) 0 0 1 .adaptive (afwL1Init (quadOracle [3]) 1 1)
        = .done) ∧
    runSteps (fun _ : Unit => StepRes.done) 3 () = .ok () ∧
    runSteps (fun _ : Unit => StepRes.next ()) 0 () = .ok () := by
  refine ⟨⟨by decide, claim_C1_stop.1 _ _ _ _ _ (by decide)⟩,
    ⟨by decide, claim_C1_stop.2.1 _ _ _ _ _ _ _ _ (by decide)⟩,
    ⟨by decide, by decide, claim_C1_stop.2.2.1 _ _ _ _ _ _ (by decide) (by decide)⟩,
    ⟨by decide, by decide, claim_C1_stop.2.2.2.1 _ _ _ _ _ _ (by decide) (by decide)⟩,
    claim_C1_stop.2.2.2.2.1 Unit _ 2 () rfl,
    claim_C1_stop.2.2.2.2.2 Unit _ ()⟩

/-- Claim C2 is contradicted by the code (a bug): PFW/L1 runs the away-weight
bookkeeping only when `it > 0`, so the very first iteration never decrements
`weight_zero`.  For the quadratic `f(x) = ½‖x - (-1, 2)‖²` with `alpha = 1`,
`L_t = 1`, adaptive line search, the first iteration accepts the step `½`
toward the atom `e_1`: afterwards the origin still carries weight 1 and the
new atom carries weight ½, so the active-set weights sum to 3/2, not 1. -/
theorem claim_C2_weight_sum_violation :
    pfwL1WeightSum 1
        (minimize_PFW_L1 (quadOracle [-1, 2]) [0, 0] 1 1 (1 / 10 ^ 12) .adaptive 1)
      = 3 / 2 ∧ (3 / 2 : ℚ) ≠ 1 := by
  exact ⟨by decide, by norm_num⟩

/-- Claim C3 is contradicted by the code (a bug): in `backtrack` the
`L_t *= ratio_increase` sits in the `for`-loop's `else` clause, so a rejected
trial re-runs with `L_t` (hence `step_size`) unchanged, and `L_t` is doubled
exactly once after all 100 identical trials fail.  For `f = ½(x-1)²` at
`x = 0` with `d = [1]`, `g_t = 1`, `L_t = ½` every trial is rejected, and
`backtrack` returns `L_t = 1 = 2·L₀` — not the `2¹⁰⁰·L₀` that doubling
before each retry would produce. -/
theorem claim_C3_backtrack_constant_L :
    backtrack (quadOracle [1]) (1 / 2) [0] [1] 1 (1 / 2) 1 2 (999 / 1000) 100
      = (1, 1, 0, [0]) ∧ (1 : ℚ) ≠ 2 ^ 100 * (1 / 2) := by
  exact ⟨by decide, by norm_num⟩

/-- Claim C4, counterexample.  Under the `Lipschitz` strategy no acceptance
test guards the step, so a curvature estimate below the true curvature makes
the loss increase: for `f(x) = ½(x - 1/10)²` from `x0 = [0]` with
`L_t = 1/100`, FW/L1 takes the full step to `x = [1]` and the loss rises
from `1/200` to `81/200`, far beyond the slack `LS_EPS`. -/
theorem claim_C4_counterexample :
    minimize_FW_L1 (quadOracle [1 / 10]) [0] 1 (1 / 100) (1 / 10 ^ 12)
        .lipschitz 1 = .ok ⟨[1], 1 / 100, 81 / 200, [9 / 10]⟩ ∧
    (fwL1Init (quadOracle [1 / 10]) [0] (1 / 100)).f = 1 / 200 ∧
    (1 / 200 : ℚ) + LS_EPS < 81 / 200 := by
  exact ⟨by decide, by decide, by decide⟩

/-- Claim C4, amended: an accepted trial of any inline adaptive loop does not
increase the loss beyond `LS_EPS`; an accepted trial of `backtrack` does not
increase the loss at all; and a `Lipschitz` step does not increase the loss
provided the curvature estimate satisfies the descent-lemma bound along the
step (without that hypothesis the loss can increase, per the
counterexample). -/
theorem claim_C4_monotone :
    (∀ (fg : Vec → ℚ × Vec) (move : ℚ → Vec) (f_t g d2 γmax rdec : ℚ)
        (small : Bool) (fuel i : Nat) (L : ℚ) (first : Bool),
        0 < g → 0 < d2 → 0 < γmax → 0 < L →
        (adaptiveLoop fg move f_t g d2 γmax rdec small fuel i L).exitKind
          = ALExit.accepted first →
        (adaptiveLoop fg move f_t g d2 γmax rdec small fuel i L).fn
          ≤ f_t + LS_EPS) ∧
    (∀ (fg : Vec → ℚ × Vec) (f_t : ℚ) (x d : Vec) (g L d2 γmax : ℚ)
        (fuel i : Nat) (first : Bool) (step fn : ℚ) (gn : Vec),
        0 < g → 0 < d2 → 0 < γmax → 0 < L →
        backtrackAux fg f_t x d g L d2 γmax fuel i
          = BTOut.accepted first step fn gn →
        fn ≤ f_t) ∧
    (∀ (f_t f1 g d2 L γmax : ℚ), 0 ≤ g → 0 < d2 → 0 < L → 0 ≤ γmax →
        f1 ≤ f_t - lipschitzStep g d2 L γmax * g
          + (1 / 2) * lipschitzStep g d2 L γmax ^ 2 * L * d2 →
        f1 ≤ f_t) := by
  refine ⟨?_, ?_, ?_⟩
  · intro fg move f_t g d2 γmax rdec small fuel i L first hg hd2 hγ hL h
    exact adaptiveLoop_accept fg move f_t g d2 γmax rdec small fuel i L first
      hg hd2 hγ hL h
  · intro fg f_t x d g L d2 γmax fuel i first step fn gn hg hd2 hγ hL h
    exact backtrackAux_accept fg f_t x d g L d2 γmax fuel i first step fn gn
      hg hd2 hγ hL h
  · intro f_t f1 g d2 L γmax hg hd2 hL hγ h
    have hs : 0 ≤ lipschitzStep g d2 L γmax := by
      unfold lipschitzStep
      exact le_min (by positivity) hγ
    have h5 : lipschitzStep g d2 L γmax * (d2 * L) ≤ g := by
      have := min_le_left (g / (d2 * L)) γmax
      exact (le_div_iff (by positivity)).mp this
    have h6 : lipschitzStep g d2 L γmax * (lipschitzStep g d2 L γmax * (d2 * L))
        ≤ lipschitzStep g d2 L γmax * g :=
      mul_le_mul_of_nonneg_left h5 hs
    nlinarith [mul_nonneg hs hg]

/-- Claim C4, witness: a first-trial acceptance of the inline adaptive loop, a
first-trial acceptance of `backtrack`, and a descent-bounded Lipschitz step,
each with a non-increasing loss. -/
theorem claim_C4_monotone_witness :
    ((adaptiveLoop (fun _ : Vec => ((0 : ℚ), ([] : Vec))) (fun _ : ℚ => ([] : Vec)) 1 1 1 1
        (1 / 2) false 100 0 1).exitKind = ALExit.accepted true ∧
      (adaptiveLoop (fun _ : Vec => ((0 : ℚ), ([] : Vec))) (fun _ : ℚ => ([] : Vec)) 1 1 1 1
        (1 / 2) false 100 0 1).fn ≤ 1 + LS_EPS) ∧
    (backtrackAux (fun _ : Vec => ((0 : ℚ), ([] : Vec))) 1 [] [] 1 1 1 1 100 0
        = BTOut.accepted true 1 0 [] ∧ (0 : ℚ) ≤ 1) ∧
    ((0 : ℚ) ≤ 1 - lipschitzStep 1 1 1 1 * 1
        + (1 / 2) * lipschitzStep 1 1 1 1 ^ 2 * 1 * 1 ∧ (0 : ℚ) ≤ 1) := by
  refine ⟨⟨by decide, ?_⟩, ⟨by decide, ?_⟩, ⟨by decide, ?_⟩⟩
  · exact claim_C4_monotone.1 (fun _ : Vec => ((0 : ℚ), ([] : Vec)))
      (fun _ : ℚ => ([] : Vec)) 1 1 1 1 (1 / 2) false 100 0 1 true
      (by norm_num) (by norm_num) (by norm_num) (by norm_num) (by decide)
  · exact claim_C4_monotone.2.1 (fun _ : Vec => ((0 : ℚ), ([] : Vec)))
      1 [] [] 1 1 1 1 100 0 true 1 0 []
      (by norm_num) (by norm_num) (by norm_num) (by norm_num) (by decide)
  · exact claim_C4_monotone.2.2 1 0 1 1 1 1 (by norm_num) (by norm_num)
      (by norm_num) (by norm_num) (by decide)

/-- Claim C5: the computed Frank-Wolfe gap of the chosen direction is
nonnegative in every driver: unconditionally for PFW/L1; at any feasible
iterate (`‖x‖₁ ≤ alpha`) for FW/L1 and for AFW/L1 (including the asserted
forward gap `gt_fw`); and for the trace drivers whenever the SVD vertex
linearly minimizes against the current gradient (over the iterate for
FW/trace, over the active atoms for PFW/trace). -/
theorem claim_C5_gap_nonneg :
    (∀ (alpha : ℚ) (x grad : Vec), 0 ≤ alpha → x.length = grad.length →
        l1norm x ≤ alpha → 0 ≤ fwL1Gap alpha x grad) ∧
    (∀ (alpha : ℚ) (n : Nat) (s : PFWL1St), 0 ≤ alpha → 0 < n →
        s.grad.length = n → 0 ≤ (pfwL1Head alpha n s).g) ∧
    (∀ (alpha : ℚ) (n : Nat) (s : AFWL1St), 0 ≤ alpha → 0 < n →
        s.grad.length = n → s.x.length = s.grad.length → l1norm s.x ≤ alpha →
        0 ≤ (afwL1Head alpha n s).gtFw ∧ 0 ≤ (afwL1Head alpha n s).g) ∧
    (∀ (grad x sT : Vec), grad.length = sT.length → sT.length = x.length →
        dot grad sT ≤ dot grad x → 0 ≤ fwTraceGap grad x sT) ∧
    (∀ (dyad : Vec → Vec) (alpha : ℚ) (s : PFWTraceSt) (h : PFWTraceHead),
        pfwTraceHead dyad alpha s = .ok h →
        (∀ a ∈ s.activeSet, dot s.grad h.sT ≤ dot s.grad a) →
        (∀ a ∈ s.activeSet, s.grad.length = a.length) →
        s.grad.length = h.sT.length → 0 ≤ h.g) := by
  refine ⟨?_, ?_, ?_, ?_, ?_⟩
  · exact fun alpha x grad ha hlen hfeas => fwL1Gap_nonneg alpha x grad ha hlen hfeas
  · exact fun alpha n s ha hn hlen => pfwL1Head_g_nonneg alpha n s ha hn hlen
  · exact fun alpha n s ha hn hlen hx hfeas =>
      afwL1Head_nonneg alpha n s ha hn hlen hx hfeas
  · intro grad x sT h1 h2 hmin
    unfold fwTraceGap
    rw [dot_vsub_right grad sT x h1 h2]
    linarith
  · intro dyad alpha s h hh hmin hlens hlen
    obtain ⟨hmem, hg, -⟩ := pfwTraceHead_ok dyad alpha s h hh
    rw [hg, dot_vsub_right s.grad h.sT h.vT hlen (by rw [← hlen, hlens h.vT hmem])]
    have := hmin h.vT hmem
    linarith

/-- Claim C5, witness: concrete gap values for each driver. -/
theorem claim_C5_gap_nonneg_witness :
    (0 ≤ fwL1Gap 1 [0] [1]) ∧
    (0 ≤ (pfwL1Head 1 2 (pfwL1Init (quadOracle [-1, 2]) 2 1)).g) ∧
    (0 ≤ (afwL1Head 1 2 (afwL1Init (quadOracle [-1, 2]) 2 1)).gtFw ∧
      0 ≤ (afwL1Head 1 2 (afwL1Init (quadOracle [-1, 2]) 2 1)).g) ∧
    (0 ≤ fwTraceGap [0] [2] [1]) ∧
    (0 ≤ (⟨[1], false, 0, 0, [0], 1, [1], 0⟩ : PFWTraceHead).g) := by
  refine ⟨?_, ?_, ?_, ?_, ?_⟩
  · exact claim_C5_gap_nonneg.1 1 [0] [1] (by norm_num) (by decide) (by decide)
  · exact claim_C5_gap_nonneg.2.1 1 2 _ (by norm_num) (by norm_num) (by decide)
  · exact claim_C5_gap_nonneg.2.2.1 1 2 _ (by norm_num) (by norm_num) (by decide)
      (by decide) (by decide)
  · exact claim_C5_gap_nonneg.2.2.2.1 [0] [2] [1] (by decide) (by decide) (by decide)
  · exact claim_C5_gap_nonneg.2.2.2.2 (fun _ => [1]) 1
      ⟨[2], 1, 0, [0], [[0]], [1]⟩ ⟨[1], false, 0, 0, [0], 1, [1], 0⟩
      (by decide) (by decide) (by decide) (by decide)

/-- Claim C6, counterexample.  FW/L1 uses `backtrack`, which has no curvature
ceiling: started with `L_t = 10¹¹ ≥ 10¹⁰` on `f(x) = ½(x-1)²`, the driver
accepts a tiny step, finishes the run normally and returns an iterate with
`L_t = 9.99·10¹⁰` still above the ceiling — no error is raised. -/
theorem claim_C6_counterexample :
    resOk (minimize_FW_L1 (quadOracle [1]) [0] 1 (10 ^ 11) (1 / 10 ^ 12)
        .adaptive 1) = true ∧
    fwL1ResultL (minimize_FW_L1 (quadOracle [1]) [0] 1 (10 ^ 11) (1 / 10 ^ 12)
        .adaptive 1) = 999 * 10 ^ 8 ∧
    (10 : ℚ) ^ 10 ≤ 999 * 10 ^ 8 := by
  exact ⟨by decide, by decide, by norm_num⟩

/-- Claim C6, amended: only PFW/L1 and AFW/L1 enforce the `L_t >= 1e10`
ceiling — their post-line-search tails raise `ValueError` whenever the
updated curvature estimate reaches it — while FW/L1, FW/trace (and, on a
nonempty active set, PFW/trace) never raise under the adaptive strategy, no
matter how large `L_t` grows. -/
theorem claim_C6_ceiling :
    (∀ (n : Nat) (s : PFWL1St) (h : PFWL1Head) (step L' fn : ℚ)
        (gn : Vec) (x' : Vec), (10 : ℚ) ^ 10 ≤ L' →
        pfwL1Finish n s h step L' fn gn x' = .fail .valueError) ∧
    (∀ (n : Nat) (s : AFWL1St) (h : AFWL1Head) (L' fn : ℚ)
        (gn : Vec) (x' : Vec), (10 : ℚ) ^ 10 ≤ L' →
        afwL1Finish n s h L' fn gn x' = .fail .valueError) ∧
    (∀ (fg : Vec → ℚ × Vec) (alpha tol : ℚ) (s : FWL1St) (e : PyErr),
        fwL1Step fg alpha tol .adaptive s ≠ .fail e) ∧
    (∀ (dyad : Vec → Vec) (A P : Vec) (nf alpha tol : ℚ) (s : FWL1St)
        (e : PyErr), fwTraceStep dyad A P nf alpha tol .adaptive s ≠ .fail e) ∧
    (∀ (dyad : Vec → Vec) (A P : Vec) (nf alpha tol : ℚ) (s : PFWTraceSt)
        (e : PyErr), s.activeSet ≠ [] →
        pfwTraceStep dyad A P nf alpha tol .adaptive s ≠ .fail e) := by
  refine ⟨?_, ?_, ?_, ?_, ?_⟩
  · intro n s h step L' fn gn x' hL
    unfold pfwL1Finish
    rw [if_pos hL]
  · intro n s h L' fn gn x' hL
    unfold afwL1Finish
    rw [if_pos hL]
  · intro fg alpha tol s e h
    unfold fwL1Step at h
    simp only [] at h
    split at h
    · simp at h
    · simp at h
  · intro dyad A P nf alpha tol s e h
    unfold fwTraceStep at h
    simp only [] at h
    split at h
    · simp at h
    · simp at h
  · intro dyad A P nf alpha tol s e hne h
    obtain ⟨hd, hh⟩ := pfwTraceHead_isOk dyad alpha s hne
    unfold pfwTraceStep at h
    rw [hh] at h
    simp at h

/-- Claim C6, witness: the ceiling fires in the PFW/L1 and AFW/L1 tails, and
a PFW/trace adaptive step with a nonempty active set does not raise. -/
theorem claim_C6_ceiling_witness :
    pfwL1Finish 1 ⟨[0], 1, 0, [0], [false, false, true], 1, 0⟩
        ⟨0, 0, 2, 0, true, 1, 0⟩ 0 (10 ^ 11) 0 [] []
      = .fail .valueError ∧
    afwL1Finish 1 ⟨[0], 1, 0, [0], [false, false, true]⟩
        ⟨0, 0, 2, 0, 0, 0, [0], 1, 0⟩ (10 ^ 11) 0 [] []
      = .fail .valueError ∧
    pfwTraceStep (fun _ => [1]) [2] [1] 1 1 (1 / 10 ^ 12) .adaptive
        ⟨[2], 1, 0, [0], [[0]], [1]⟩ ≠ .fail .valueError := by
  refine ⟨?_, ?_, ?_⟩
  · exact claim_C6_ceiling.1 1 _ _ 0 (10 ^ 11) 0 [] [] (by norm_num)
  · exact claim_C6_ceiling.2.1 1 _ _ (10 ^ 11) 0 [] [] (by norm_num)
  · exact claim_C6_ceiling.2.2.2.2 (fun _ => [1]) [2] [1] 1 1 (1 / 10 ^ 12) _
      .valueError (by decide)

/-- Claim C7, counterexample.  PFW/L1 does not accept the `approx_ls`
strategy: its dispatch recognizes only `adaptive` and `Lipschitz` and raises
`ValueError(ls_strategy)` for anything else.  Concretely, the first iteration
of the quadratic problem of C2 with `ls_strategy = approx_ls` fails. -/
theorem claim_C7_counterexample :
    pfwL1Step (quadOracle [-1, 2]) 1 (1 / 10 ^ 12) 2 .approxLs
      (pfwL1Init (quadOracle [-1, 2]) 2 1) = .fail .valueError := by
  decide

/-- Claim C7, amended: FW/trace and PFW/trace raise `ValueError` at the
line-search dispatch for an unrecognized strategy; FW/L1 instead falls
through its `if/elif` chain and dies with a `NameError` on the undefined
`step_size`; PFW/L1 and AFW/L1 accept only `adaptive` and `Lipschitz`,
raising `ValueError` for `approx_ls` exactly as for unknown values; and the
three drivers that do accept `approx_ls` never raise a configuration
`ValueError` from its dispatch. -/
theorem claim_C7_dispatch :
    (∀ (fg : Vec → ℚ × Vec) (alpha tol : ℚ) (s : FWL1St),
        ¬ (fwL1Gap alpha s.x s.grad ≤ tol) →
        fwL1Step fg alpha tol .unknown s = .fail .nameError) ∧
    (∀ (dyad : Vec → Vec) (A P : Vec) (nf alpha tol : ℚ) (s : FWL1St),
        ¬ (fwTraceGap s.grad s.x (fwTraceVertex dyad alpha s.grad) ≤ tol) →
        fwTraceStep dyad A P nf alpha tol .unknown s = .fail .valueError) ∧
    (∀ (dyad : Vec → Vec) (A P : Vec) (nf alpha tol : ℚ) (s : PFWTraceSt),
        pfwTraceStep dyad A P nf alpha tol .unknown s = .fail .valueError) ∧
    (∀ (fg : Vec → ℚ × Vec) (alpha tol : ℚ) (n : Nat) (s : PFWL1St),
        0 < (pfwL1Head alpha n s).gammaMax → ¬ ((pfwL1Head alpha n s).g ≤ tol) →
        ((pfwL1Head alpha n s).idxOracle : Int) ≠ (pfwL1Head alpha n s).awayIdx →
        pfwL1Step fg alpha tol n .approxLs s = .fail .valueError ∧
        pfwL1Step fg alpha tol n .unknown s = .fail .valueError) ∧
    (∀ (fg : Vec → ℚ × Vec) (alpha tol : ℚ) (n : Nat) (s : AFWL1St),
        0 ≤ (afwL1Head alpha n s).gtFw → ¬ ((afwL1Head alpha n s).g ≤ tol) →
        afwL1Step fg alpha tol n .approxLs s = .fail .valueError ∧
        afwL1Step fg alpha tol n .unknown s = .fail .valueError) ∧
    (∀ (fg : Vec → ℚ × Vec) (alpha tol : ℚ) (s : FWL1St),
        fwL1Step fg alpha tol .approxLs s ≠ .fail .valueError) ∧
    (∀ (dyad : Vec → Vec) (A P : Vec) (nf alpha tol : ℚ) (s : FWL1St),
        fwTraceStep dyad A P nf alpha tol .approxLs s ≠ .fail .valueError) ∧
    (∀ (dyad : Vec → Vec) (A P : Vec) (nf alpha tol : ℚ) (s : PFWTraceSt),
        s.activeSet ≠ [] →
        pfwTraceStep dyad A P nf alpha tol .approxLs s ≠ .fail .valueError) := by
  refine ⟨?_, ?_, ?_, ?_, ?_, ?_, ?_, ?_⟩
  · intro fg alpha tol s h
    unfold fwL1Step
    simp only []
    rw [if_neg h]
  · intro dyad A P nf alpha tol s h
    unfold fwTraceStep
    simp only []
    rw [if_neg h]
  · intro dyad A P nf alpha tol s
    unfold pfwTraceStep
    cases hh : pfwTraceHead dyad alpha s with
    | err e =>
      have he : e = .valueError := by
        unfold pfwTraceHead at hh
        simp only [] at hh
        split at hh
        · injection hh with h1; exact h1.symm
        · simp at hh
      rw [he]
    | ok h => rfl
  · intro fg alpha tol n s h1 h2 h3
    constructor <;>
      · unfold pfwL1Step
        simp only []
        rw [if_neg (not_not_intro h1), if_neg h2, if_neg h3]
  · intro fg alpha tol n s h1 h2
    constructor <;>
      · unfold afwL1Step
        simp only []
        rw [if_neg (not_not_intro h1), if_neg h2]
  · intro fg alpha tol s h
    unfold fwL1Step at h
    simp only [] at h
    split at h
    · simp at h
    · cases hA : approx_ls_armijo fg s.f s.x (fwL1Dir alpha s.x s.grad) 1 100 with
      | ok step => rw [hA] at h; simp at h
      | err e =>
        rw [hA] at h
        simp only [] at h
        injection h with h1
        have hcontra : approx_ls_armijo fg s.f s.x (fwL1Dir alpha s.x s.grad) 1 100
            = .err .valueError := by rw [hA, h1]
        unfold approx_ls_armijo at hcontra
        exact approxLsArmijoAux_ne_valueError _ _ _ _ _ _ _ hcontra
  · intro dyad A P nf alpha tol s h
    unfold fwTraceStep at h
    simp only [] at h
    split at h
    · simp at h
    · cases hA : approx_ls_trace (fgTrace A P nf) s.f s.x
          (vsub (fwTraceVertex dyad alpha s.grad) s.x) 1 100 with
      | ok step => rw [hA] at h; simp at h
      | err e =>
        rw [hA] at h
        simp only [] at h
        injection h with h1
        have hcontra : approx_ls_trace (fgTrace A P nf) s.f s.x
            (vsub (fwTraceVertex dyad alpha s.grad) s.x) 1 100
            = .err .valueError := by rw [hA, h1]
        unfold approx_ls_trace at hcontra
        exact approxLsTraceAux_ne_valueError _ _ _ _ _ _ _ hcontra
  · intro dyad A P nf alpha tol s hne h
    obtain ⟨hd, hh⟩ := pfwTraceHead_isOk dyad alpha s hne
    unfold pfwTraceStep at h
    rw [hh] at h
    simp only [] at h
    cases hA : approx_ls (fgTrace A P nf) s.f s.x hd.d 1 100 with
    | ok step => rw [hA] at h; simp at h
    | err e =>
      rw [hA] at h
      simp only [] at h
      injection h with h1
      have hcontra : approx_ls (fgTrace A P nf) s.f s.x hd.d 1 100
          = .err .valueError := by rw [hA, h1]
      unfold approx_ls at hcontra
      exact approxLsAux_ne_valueError _ _ _ _ _ _ _ hcontra

/-- Claim C7, witness: concrete instantiations of the dispatch statements
that carry hypotheses. -/
theorem claim_C7_dispatch_witness :
    fwL1Step (quadOracle [1]) 1 (1 / 2) .unknown
        (fwL1Init (quadOracle [1]) [0] 1) = .fail .nameError ∧
    fwTraceStep (fun _ => [1]) [2] [1] 1 1 (1 / 2) .unknown
        (fwL1Init (fgTrace [2] [1] 1) [0] 1) = .fail .valueError ∧
    (pfwL1Step (quadOracle [-1, 2]) 1 (1 / 10 ^ 12) 2 .unknown
        (pfwL1Init (quadOracle [-1, 2]) 2 1) = .fail .valueError) ∧
    (afwL1Step (quadOracle [-1, 2]) 1 (1 / 10 ^ 12) 2 .approxLs
        (afwL1Init (quadOracle [-1, 2]) 2 1) = .fail .valueError) ∧
    pfwTraceStep (fun _ => [1]) [2] [1] 1 1 (1 / 10 ^ 12) .approxLs
        ⟨[2], 1, 0, [0], [[0]], [1]⟩ ≠ .fail .valueError := by
  refine ⟨?_, ?_, ?_, ?_, ?_⟩
  · exact claim_C7_dispatch.1 _ 1 (1 / 2) _ (by decide)
  · exact claim_C7_dispatch.2.1 (fun _ => [1]) [2] [1] 1 1 (1 / 2) _ (by decide)
  · exact (claim_C7_dispatch.2.2.2.1 _ 1 (1 / 10 ^ 12) 2 _
      (by decide) (by decide) (by decide)).2
  · exact (claim_C7_dispatch.2.2.2.2.1 _ 1 (1 / 10 ^ 12) 2 _
      (by decide) (by decide)).1
  · exact claim_C7_dispatch.2.2.2.2.2.2.2 (fun _ => [1]) [2] [1] 1 1
      (1 / 10 ^ 12) _ (by decide)

theorem length_eraseIdx_succ {α : Type} :
    ∀ (l : List α) (i : Nat), i < l.length → (l.eraseIdx i).length + 1 = l.length := by
  intro l
  induction l with
  | nil => intro i h; simp at h
  | cons a rest ih =>
    intro i h
    cases i with
    | zero => simp [List.eraseIdx]
    | succ i' =>
      simp only [List.eraseIdx, List.length_cons]
      rw [ih i' (by simpa using h)]

/-- Claim C8: in PFW/trace the step cap `gamma_max` is the away atom's
current weight; a drop step (`step_size == gamma_max`) removes the away atom
and its weight, shrinking both lists by exactly one entry relative to their
post-toward-update state; a non-drop step keeps the lists' lengths and
decrements the away weight by the step size; and the away index stays in
bounds through the toward update. -/
theorem claim_C8_drop_step :
    (∀ (dyad : Vec → Vec) (alpha : ℚ) (s : PFWTraceSt) (h : PFWTraceHead),
        pfwTraceHead dyad alpha s = .ok h →
        h.gammaMax = s.coefs.getD h.vtIdx 0) ∧
    (∀ (step gamma_max : ℚ) (vtIdx : Nat) (A : List Vec) (W : List ℚ),
        vtIdx < A.length → vtIdx < W.length →
        (step = gamma_max →
          (pfwTraceAway step gamma_max vtIdx A W).1.length + 1 = A.length ∧
          (pfwTraceAway step gamma_max vtIdx A W).2.length + 1 = W.length) ∧
        (step ≠ gamma_max →
          (pfwTraceAway step gamma_max vtIdx A W).1 = A ∧
          (pfwTraceAway step gamma_max vtIdx A W).2.length = W.length ∧
          (pfwTraceAway step gamma_max vtIdx A W).2.getD vtIdx 0
            = W.getD vtIdx 0 - step)) ∧
    (∀ (inSet : Bool) (idxMin : Nat) (sT : Vec) (step : ℚ) (A : List Vec)
        (W : List ℚ) (vtIdx : Nat), vtIdx < A.length → vtIdx < W.length →
        vtIdx < (pfwTraceToward inSet idxMin sT step A W).1.length ∧
        vtIdx < (pfwTraceToward inSet idxMin sT step A W).2.length) := by
  refine ⟨?_, ?_, ?_⟩
  · intro dyad alpha s h hh
    exact (pfwTraceHead_ok dyad alpha s h hh).2.2
  · intro step gamma_max vtIdx A W hA hW
    constructor
    · intro hdrop
      unfold pfwTraceAway
      rw [if_pos hdrop]
      exact ⟨length_eraseIdx_succ A vtIdx hA, length_eraseIdx_succ W vtIdx hW⟩
    · intro hnd
      unfold pfwTraceAway
      rw [if_neg hnd]
      exact ⟨rfl, by simp, getD_set_self W vtIdx _ 0 hW⟩
  · intro inSet idxMin sT step A W vtIdx hA hW
    unfold pfwTraceToward
    split
    · constructor
      · simpa using hA
      · simpa using hW
    · constructor
      · simp only [List.length_append, List.length_cons, List.length_nil]
        omega
      · simp only [List.length_append, List.length_cons, List.length_nil]
        omega

/-- Claim C8, witness: the concrete PFW/trace head of the 1×1 problem, a
concrete drop step and a concrete non-drop step. -/
theorem claim_C8_drop_step_witness :
    (⟨[1], false, 0, 0, [0], 1, [1], 0⟩ : PFWTraceHead).gammaMax
        = ([1] : List ℚ).getD 0 0 ∧
    ((pfwTraceAway 1 1 0 [[0]] [1]).1.length + 1 = 1 ∧
      (pfwTraceAway 1 1 0 [[0]] [1]).2.length + 1 = 1) ∧
    ((pfwTraceAway 0 1 0 [[0]] [1]).1 = [[0]] ∧
      (pfwTraceAway 0 1 0 [[0]] [1]).2.length = 1 ∧
      (pfwTraceAway 0 1 0 [[0]] [1]).2.getD 0 0 = ([1] : List ℚ).getD 0 0 - 0) ∧
    (0 < (pfwTraceToward false 0 [1] 0 [[0]] [1]).1.length ∧
      0 < (pfwTraceToward false 0 [1] 0 [[0]] [1]).2.length) := by
  refine ⟨?_, ?_, ?_, ?_⟩
  · exact claim_C8_drop_step.1 (fun _ => [1]) 1 ⟨[2], 1, 0, [0], [[0]], [1]⟩
      ⟨[1], false, 0, 0, [0], 1, [1], 0⟩ (by decide)
  · exact (claim_C8_drop_step.2.1 1 1 0 [[0]] [1] (by decide) (by decide)).1 rfl
  · exact (claim_C8_drop_step.2.1 0 1 0 [[0]] [1] (by decide) (by decide)).2
      (by norm_num)
  · exact claim_C8_drop_step.2.2 false 0 [1] 0 [[0]] [1] 0 (by decide) (by decide)

/-- With `alpha = 0` the PFW/L1 head has cap `weight_zero = 1` and gap `0`. -/
theorem pfwL1Head_alpha_zero (n : Nat) (s : PFWL1St)
    (hmask : s.activeSet = (List.replicate (2 * n + 1) false).set (2 * n) true)
    (hwz : s.weightZero = 1) :
    (pfwL1Head 0 n s).gammaMax = 1 ∧ (pfwL1Head 0 n s).g = 0 := by
  unfold pfwL1Head
  simp only []
  rw [hmask, max_active_initMask]
  simp [hwz]

/-- With `alpha = 0` and a zero iterate the AFW/L1 head has `gt_fw = 0` and
gap `0`. -/
theorem afwL1Head_alpha_zero (n : Nat) (s : AFWL1St)
    (hmask : s.activeSet = (List.replicate (2 * n + 1) false).set (2 * n) true)
    (hx : s.x = List.replicate n 0) :
    (afwL1Head 0 n s).gtFw = 0 ∧ (afwL1Head 0 n s).g = 0 := by
  unfold afwL1Head
  simp only []
  rw [hmask, max_active_initMask, hx]
  simp [dot_replicate_zero_right]

/-- Claim C9, counterexample.  FW/L1 starts from `x0` (not from the origin):
with `alpha = 0`, `x0 = [1]`, `f(x) = ½(x+1)²`, the first gap check computes
`g_t = 2 > tol`, a step is taken, and the driver returns `[1/2]` — not the
zero vector, and not immediately. -/
theorem claim_C9_counterexample :
    minimize_FW_L1 (quadOracle [-1]) [1] 0 4 (1 / 10 ^ 12) .adaptive 1
      = .ok ⟨[1 / 2], 999 / 250, 9 / 8, [3 / 2]⟩ ∧
    fwL1ResultX (minimize_FW_L1 (quadOracle [-1]) [1] 0 4 (1 / 10 ^ 12)
      .adaptive 1) ≠ [0] ∧
    fwL1Step (quadOracle [-1]) 0 (1 / 10 ^ 12) .adaptive
      (fwL1Init (quadOracle [-1]) [1] 4) ≠ .done := by
  exact ⟨by decide, by decide, by decide⟩

/-- Claim C9, amended: with `alpha = 0`, PFW/L1 and AFW/L1 (which start from
the zero vector regardless of `x0`) stop at the very first gap check — the
gap is 0 there for every oracle — and immediately return the zero vector,
for every nonnegative tolerance, strategy and positive iteration budget. -/
theorem claim_C9_zero_radius :
    (∀ (fg : Vec → ℚ × Vec) (x0 : Vec) (L tol : ℚ) (strat : Strategy) (k : Nat),
        0 ≤ tol →
        pfwL1Step fg 0 tol x0.length strat (pfwL1Init fg x0.length L) = .done ∧
        minimize_PFW_L1 fg x0 0 L tol strat (k + 1)
          = .ok (pfwL1Init fg x0.length L) ∧
        (pfwL1Init fg x0.length L).x = List.replicate x0.length 0) ∧
    (∀ (fg : Vec → ℚ × Vec) (x0 : Vec) (L tol : ℚ) (strat : Strategy) (k : Nat),
        0 ≤ tol →
        afwL1Step fg 0 tol x0.length strat (afwL1Init fg x0.length L) = .done ∧
        minimize_AFW_L1 fg x0 0 L tol strat (k + 1)
          = .ok (afwL1Init fg x0.length L) ∧
        (afwL1Init fg x0.length L).x = List.replicate x0.length 0) := by
  constructor
  · intro fg x0 L tol strat k htol
    have hh := pfwL1Head_alpha_zero x0.length (pfwL1Init fg x0.length L) rfl rfl
    have hstep : pfwL1Step fg 0 tol x0.length strat (pfwL1Init fg x0.length L)
        = .done := by
      unfold pfwL1Step
      simp only []
      rw [hh.1, hh.2]
      rw [if_neg (by norm_num), if_pos htol]
    refine ⟨hstep, ?_, rfl⟩
    unfold minimize_PFW_L1
    exact runSteps_done _ k _ hstep
  · intro fg x0 L tol strat k htol
    have hh := afwL1Head_alpha_zero x0.length (afwL1Init fg x0.length L) rfl rfl
    have hstep : afwL1Step fg 0 tol x0.length strat (afwL1Init fg x0.length L)
        = .done := by
      unfold afwL1Step
      simp only []
      rw [hh.1, hh.2]
      rw [if_neg (by norm_num), if_pos htol]
    refine ⟨hstep, ?_, rfl⟩
    unfold minimize_AFW_L1
    exact runSteps_done _ k _ hstep

/-- Claim C9, witness: the zero-radius immediate return at a concrete
oracle, size, tolerance and budget. -/
theorem claim_C9_zero_radius_witness :
    (pfwL1Step (quadOracle [3]) 0 (1 / 10 ^ 12) 1 .adaptive
        (pfwL1Init (quadOracle [3]) 1 1) = .done ∧
      minimize_PFW_L1 (quadOracle [3]) [5] 0 1 (1 / 10 ^ 12) .adaptive 3
        = .ok (pfwL1Init (quadOracle [3]) 1 1) ∧
      (pfwL1Init (quadOracle [3]) 1 1).x = List.replicate 1 0) ∧
    (afwL1Step (quadOracle [3]) 0 (1 / 10 ^ 12) 1 .adaptive
        (afwL1Init (quadOracle [3]) 1 1) = .done ∧
      minimize_AFW_L1 (quadOracle [3]) [5] 0 1 (1 / 10 ^ 12) .adaptive 3
        = .ok (afwL1Init (quadOracle [3]) 1 1) ∧
      (afwL1Init (quadOracle [3]) 1 1).x = List.replicate 1 0) := by
  constructor
  · exact claim_C9_zero_radius.1 (quadOracle [3]) [5] 1 (1 / 10 ^ 12) .adaptive 2
      (by norm_num)
  · exact claim_C9_zero_radius.2 (quadOracle [3]) [5] 1 (1 / 10 ^ 12) .adaptive 2
      (by norm_num)

/-- Claim C10: PFW/L1 and AFW/L1 read `x0` only through its size — they start
from the zero vector — so two runs with same-size starting points, the same
oracle and the same configuration coincide entirely. -/
theorem claim_C10_x0_independence :
    ∀ (fg : Vec → ℚ × Vec) (x0 x0' : Vec) (alpha L tol : ℚ) (strat : Strategy)
      (k : Nat), x0.length = x0'.length →
      minimize_PFW_L1 fg x0 alpha L tol strat k
        = minimize_PFW_L1 fg x0' alpha L tol strat k ∧
      minimize_AFW_L1 fg x0 alpha L tol strat k
        = minimize_AFW_L1 fg x0' alpha L tol strat k := by
  intro fg x0 x0' alpha L tol strat k h
  unfold minimize_PFW_L1 minimize_AFW_L1
  rw [h]
  exact ⟨rfl, rfl⟩

/-- Claim C10, witness: two different same-size starting points yield
identical runs. -/
theorem claim_C10_x0_independence_witness :
    minimize_PFW_L1 (quadOracle [-1, 2]) [5, 7] 1 1 (1 / 10 ^ 12) .adaptive 2
      = minimize_PFW_L1 (quadOracle [-1, 2]) [0, 3] 1 1 (1 / 10 ^ 12) .adaptive 2 ∧
    minimize_AFW_L1 (quadOracle [-1, 2]) [5, 7] 1 1 (1 / 10 ^ 12) .adaptive 2
      = minimize_AFW_L1 (quadOracle [-1, 2]) [0, 3] 1 1 (1 / 10 ^ 12) .adaptive 2 := by
  exact claim_C10_x0_independence (quadOracle [-1, 2]) [5, 7] [0, 3] 1 1
    (1 / 10 ^ 12) .adaptive 2 (by decide)

end FW
